import Mathlib

/-!
# Dining philosophers (`dp.c`): shallow embedding and verification

The C program starts `NUMBER_OF_PHILOSOPHERS` threads, each running
`philosopher_main`, over an array `chopsticks` of default (non-recursive)
pthread mutexes.

* The code of a thread has no data-dependent control flow apart from the
  counted `for` loop, so each C function is embedded as the list of operations
  (`Op`) it performs, in program order.
* The concurrent execution is a step function on a `State` that holds the
  remaining code of every thread, the owner of every mutex, and the trace of the
  operations executed so far.  `step i s` lets thread `i` perform its next
  operation; a `pthread_mutex_lock` is enabled only while the mutex is free.
* C `int` arithmetic is embedded in `Nat` without overflow: all values are
  non-negative, and in the built program the largest one is `4 + 5`.
-/

namespace DiningPhilosophers

set_option maxRecDepth 100000

/-! ## Constants -/

/-- The constant `NUMBER_OF_PHILOSOPHERS`, defined as 5. -/
def NUMBER_OF_PHILOSOPHERS : Nat := 5

/-- The constant `NUMBER_OF_ROUNDS`, defined as 5. -/
def NUMBER_OF_ROUNDS : Nat := 5

/-! ## Operations performed by a philosopher thread -/

/-- The observable operations of a philosopher thread. -/
inductive Op where
  /-- the `printf("Philosopher %d starts round %d")` at the top of the loop body -/
  | startRound (round : Nat)
  /-- the body of `think`: a random `usleep` -/
  | think
  /-- the call `pthread_mutex_lock(&chopsticks[c])` -/
  | lock (c : Nat)
  /-- the body of `eat`: a random `usleep` -/
  | eat
  /-- the call `pthread_mutex_unlock(&chopsticks[c])` -/
  | unlock (c : Nat)
  /-- the final `sleep(3)` -/
  | cooldown
  /-- the final `printf` followed by `pthread_exit(NULL)` -/
  | exit
  deriving DecidableEq, Repr

/-- In `pickUp`: `int right = (philosopherNumber + 1) % NUMBER_OF_PHILOSOPHERS;` -/
def right (N philosopherNumber : Nat) : Nat := (philosopherNumber + 1) % N

/-- In `pickUp`:
`int left = (philosopherNumber + NUMBER_OF_PHILOSOPHERS) % NUMBER_OF_PHILOSOPHERS;` -/
def left (N philosopherNumber : Nat) : Nat := (philosopherNumber + N) % N

/-- In `pickUp`: `int first = philosopherNumber & 1 ? right : left;` -/
def first (N philosopherNumber : Nat) : Nat :=
  if philosopherNumber &&& 1 ≠ 0 then right N philosopherNumber else left N philosopherNumber

/-- In `pickUp`: `int second = philosopherNumber & 1 ? left : right;` -/
def second (N philosopherNumber : Nat) : Nat :=
  if philosopherNumber &&& 1 ≠ 0 then left N philosopherNumber else right N philosopherNumber

/-- The function `void think(int philosopherNumber)`: one timed suspension. -/
def think (_philosopherNumber : Nat) : List Op := [Op.think]

/-- The function `void pickUp(int philosopherNumber)`: lock `first`, then lock `second`. -/
def pickUp (N philosopherNumber : Nat) : List Op :=
  [Op.lock (first N philosopherNumber), Op.lock (second N philosopherNumber)]

/-- The function `void eat(int philosopherNumber)`: one timed suspension. -/
def eat (_philosopherNumber : Nat) : List Op := [Op.eat]

/-- The function `void putDown(int philosopherNumber)`: unlock
`(philosopherNumber + 1) % N`, then `(philosopherNumber + N) % N`. -/
def putDown (N philosopherNumber : Nat) : List Op :=
  [Op.unlock ((philosopherNumber + 1) % N), Op.unlock ((philosopherNumber + N) % N)]

/-- The body of the `for` loop of `philosopher_main` for one value of `round`. -/
def roundBody (N philosopherNumber round : Nat) : List Op :=
  Op.startRound round ::
    (think philosopherNumber ++ pickUp N philosopherNumber ++
      eat philosopherNumber ++ putDown N philosopherNumber)

/-- The loop `for (...; round < NUMBER_OF_ROUNDS; round++)` entered with the
counter at `round` and `todo = NUMBER_OF_ROUNDS - round` iterations left. -/
def roundsFrom (N philosopherNumber : Nat) : Nat → Nat → List Op
  | _, 0 => []
  | round, todo + 1 =>
      roundBody N philosopherNumber round ++ roundsFrom N philosopherNumber (round + 1) todo

/-- The thread function `void *philosopher_main(void *arg)` with `NUMBER_OF_PHILOSOPHERS = N` and
`NUMBER_OF_ROUNDS = R`: the loop, `sleep(3)`, then `pthread_exit`. -/
def philosopher_main (N R philosopherNumber : Nat) : List Op :=
  roundsFrom N philosopherNumber 0 R ++ [Op.cooldown, Op.exit]

/-- The lock and unlock operations of a piece of code, in order. -/
def lockOps (p : List Op) : List Op :=
  p.filter (fun o => match o with
    | Op.lock _ => true
    | Op.unlock _ => true
    | _ => false)

/-! ## The naive symmetric variant (scenario B of the specification) -/

/-- The naive acquisition order that scenario B of the specification describes:
every philosopher, whatever its parity, locks its own chopstick and then the
next one.  This variant is not in `dp.c`; it is the protocol the parity rule of
`pickUp` replaces. -/
def pickUpSymmetric (N philosopherNumber : Nat) : List Op :=
  [Op.lock (left N philosopherNumber), Op.lock (right N philosopherNumber)]

/-- The loop body of the symmetric variant: `roundBody` with `pickUpSymmetric`. -/
def roundBodySymmetric (N philosopherNumber round : Nat) : List Op :=
  Op.startRound round ::
    (think philosopherNumber ++ pickUpSymmetric N philosopherNumber ++
      eat philosopherNumber ++ putDown N philosopherNumber)

/-- The loop of the symmetric variant. -/
def roundsFromSymmetric (N philosopherNumber : Nat) : Nat → Nat → List Op
  | _, 0 => []
  | round, todo + 1 =>
      roundBodySymmetric N philosopherNumber round ++
        roundsFromSymmetric N philosopherNumber (round + 1) todo

/-- The thread function of the symmetric variant. -/
def philosopher_main_symmetric (N R philosopherNumber : Nat) : List Op :=
  roundsFromSymmetric N philosopherNumber 0 R ++ [Op.cooldown, Op.exit]

/-! ## Interleaved execution of the threads -/

/-- The state of the running program. -/
structure State where
  /-- the code each thread `philosophers[i]` still has to execute -/
  philosophers : Nat → List Op
  /-- the owner of each mutex `chopsticks[c]`, `none` when it is free -/
  chopsticks : Nat → Option Nat
  /-- the operations executed so far, oldest first, each with its thread -/
  trace : List (Nat × Op)

/-- Array update: `f` with the entry at index `i` replaced by `v`. -/
def setAt {α : Type} (f : Nat → α) (i : Nat) (v : α) : Nat → α :=
  fun j => if j = i then v else f j

/-- Thread `i` executes its next operation.  The result is `none` when the
thread has terminated or is blocked: `pthread_mutex_lock` proceeds only while
the mutex is free (a default mutex is not recursive, so a thread that locks a
mutex it already owns blocks too).  `pthread_mutex_unlock` marks the mutex
free whoever calls it. -/
def step (i : Nat) (s : State) : Option State :=
  match s.philosophers i with
  | [] => none
  | Op.lock c :: rest =>
      if s.chopsticks c = none then
        some { philosophers := setAt s.philosophers i rest
               chopsticks := setAt s.chopsticks c (some i)
               trace := s.trace ++ [(i, Op.lock c)] }
      else none
  | Op.unlock c :: rest =>
      some { philosophers := setAt s.philosophers i rest
             chopsticks := setAt s.chopsticks c none
             trace := s.trace ++ [(i, Op.unlock c)] }
  | op :: rest =>
      some { philosophers := setAt s.philosophers i rest
             chopsticks := s.chopsticks
             trace := s.trace ++ [(i, op)] }

/-- Run a schedule: the listed threads are given the processor in turn; a
thread that is blocked or has terminated leaves the state unchanged. -/
def exec : List Nat → State → State
  | [], s => s
  | i :: sched, s => exec sched ((step i s).getD s)

/-- The state after the first two loops of `main`: every mutex initialised
(free), thread `i < N` created with the code `code i`, nothing executed. -/
def init (code : Nat → List Op) (N : Nat) : State :=
  { philosophers := fun i => if i < N then code i else []
    chopsticks := fun _ => none
    trace := [] }

/-- The states the `N` threads can reach from `init`, under any interleaving. -/
def Reachable (code : Nat → List Op) (N : Nat) (s : State) : Prop :=
  ∃ sched : List Nat, exec sched (init code N) = s

/-- Thread `i` has terminated (`DONE`). -/
def finished (s : State) (i : Nat) : Prop := s.philosophers i = []

/-- Thread `i` can execute its next operation. -/
def enabled (s : State) (i : Nat) : Bool := (step i s).isSome

/-- A deadlock: some thread has not terminated and no thread can move. -/
def Deadlocked (N : Nat) (s : State) : Prop :=
  (∃ i, i < N ∧ ¬ finished s i) ∧ ∀ i, i < N → enabled s i = false

/-- The number of operations the `N` threads still have to execute. -/
def remaining (N : Nat) (s : State) : Nat :=
  ((List.range N).map (fun i => (s.philosophers i).length)).sum

/-! ## Observations on traces and on remaining code -/

/-- The operations of thread `i` in a trace, in order. -/
def traceOf (i : Nat) (t : List (Nat × Op)) : List Op :=
  (t.filter (fun e => decide (e.1 = i))).map Prod.snd

/-- Thread `i` is between a lock of `r` and its unlock of `r`: its most recent
lock or unlock of `r` in the trace is a lock. -/
def holding (i r : Nat) (t : List (Nat × Op)) : Bool :=
  t.foldl (fun h e =>
    if e = (i, Op.lock r) then true else if e = (i, Op.unlock r) then false else h) false

/-- One event replayed on the mutex `r`.  The mutex state is `some owner`, or
`none` once the lock discipline is broken: a lock while `r` is owned, an unlock
while `r` is free, or an unlock by a thread other than the owner. -/
def replayStep (r : Nat) (m : Option (Option Nat)) (e : Nat × Op) : Option (Option Nat) :=
  match m, e with
  | none, _ => none
  | some none, (i, Op.lock c) => if c = r then some (some i) else some none
  | some (some j), (_, Op.lock c) => if c = r then none else some (some j)
  | some none, (_, Op.unlock c) => if c = r then none else some none
  | some (some j), (i, Op.unlock c) =>
      if c = r then (if i = j then some none else none) else some (some j)
  | some o, _ => some o

/-- The whole trace replayed on the mutex `r`, starting free. -/
def replay (r : Nat) (t : List (Nat × Op)) : Option (Option Nat) :=
  t.foldl (replayStep r) (some none)

/-- The lock and unlock events on `r` alternate lock, unlock, lock, ...,
starting with a lock, each unlock by the thread of the preceding lock. -/
def Alternates (r : Nat) (t : List (Nat × Op)) : Prop := (replay r t).isSome = true

/-- The number of `pthread_mutex_lock` calls on chopstick `r` in a trace. -/
def lockCount (r : Nat) (t : List (Nat × Op)) : Nat :=
  t.countP (fun e => decide (e.2 = Op.lock r))

/-- The number of `pthread_mutex_unlock` calls on chopstick `r` in a trace. -/
def unlockCount (r : Nat) (t : List (Nat × Op)) : Nat :=
  t.countP (fun e => decide (e.2 = Op.unlock r))

/-- The number of locks of chopstick `r` by thread `i` in a trace. -/
def lockCountBy (i r : Nat) (t : List (Nat × Op)) : Nat :=
  t.countP (fun e => decide (e = (i, Op.lock r)))

/-- The code `p` still owes an unlock of `c`: its first lock or unlock of `c`
is an unlock. -/
def owes : List Op → Nat → Bool
  | [], _ => false
  | Op.lock c' :: rest, c => if c' = c then false else owes rest c
  | Op.unlock c' :: rest, c => if c' = c then true else owes rest c
  | _ :: rest, c => owes rest c

/-- Code in which locks and unlocks of every chopstick are properly paired:
after a lock of `c` the next operation on `c` is an unlock, and after an unlock
of `c` the next operation on `c`, if any, is a lock. -/
def Paired : List Op → Prop
  | [] => True
  | Op.lock c :: rest => owes rest c = true ∧ Paired rest
  | Op.unlock c :: rest => owes rest c = false ∧ Paired rest
  | _ :: rest => Paired rest

/-! ## The orchestrator `main` -/

/-- The lines `main` prints in its join loop. -/
inductive Msg where
  /-- the line `ERR: join not successful` -/
  | errJoin
  /-- the line `philosopher %d done in main` -/
  | doneInMain (i : Nat)
  deriving DecidableEq, Repr

/-- What a run of `main` produces. -/
structure MainResult where
  /-- the threads `pthread_join` was called on, in order -/
  joined : List Nat
  /-- the lines printed by the join loop, in order -/
  output : List Msg
  /-- the value `main` returns -/
  status : Int

/-- The join loop of `main`, `for (i = ...; i < NUMBER_OF_PHILOSOPHERS; i++)`,
entered with the counter at `i` and `todo` iterations left; `pthread_join k`
is the value the call for thread `k` returns. -/
def joinLoop (pthread_join : Nat → Int) : Nat → Nat → List Nat × List Msg
  | _, 0 => ([], [])
  | i, todo + 1 =>
      let r := joinLoop pthread_join (i + 1) todo
      (i :: r.1,
        (if pthread_join i ≠ 0 then Msg.errJoin else Msg.doneInMain i) :: r.2)

/-- The function `int main()`, given the value `pid` that `fork` returned and
the values the `pthread_join` calls return.  The child (`pid = 0`) prints its
five time stamps and returns `EXIT_SUCCESS`; the parent initialises, creates
and joins the threads, destroys the mutexes and executes `return 0;`. -/
def main (N : Nat) (pid : Int) (pthread_join : Nat → Int) : MainResult :=
  if pid = 0 then
    { joined := [], output := [], status := 0 }
  else
    let r := joinLoop pthread_join 0 N
    { joined := r.1, output := r.2, status := 0 }

/-- A vector of `pthread_join` results in which the join of thread 2 fails with
error 3 and every other join succeeds. -/
def joinFailsAt2 : Nat → Int := fun k => if k = 2 then 3 else 0

/-! ## Definitions used by the proofs -/

/-- The effect of an executed operation of thread `i` on the mutex owners. -/
def applyOp (i : Nat) (chopsticks : Nat → Option Nat) : Op → Nat → Option Nat
  | Op.lock c => setAt chopsticks c (some i)
  | Op.unlock c => setAt chopsticks c none
  | _ => chopsticks

/-- The invariant of the interleaved execution of `N` threads with code `code`. -/
structure Inv (code : Nat → List Op) (N : Nat) (s : State) : Prop where
  /-- what thread `i` has executed, followed by what it has left, is its code -/
  code_eq : ∀ i, i < N → traceOf i s.trace ++ s.philosophers i = code i
  /-- there is no thread beyond `N` -/
  absent : ∀ i, N ≤ i → s.philosophers i = []
  /-- every event is by one of the `N` threads -/
  actors : ∀ e ∈ s.trace, e.1 < N
  /-- thread `i` owns `c` exactly when its remaining code owes an unlock of `c` -/
  owner : ∀ c i, s.chopsticks c = some i ↔ owes (s.philosophers i) c = true
  /-- the remaining code of every thread is properly paired -/
  paired : ∀ i, Paired (s.philosophers i)
  /-- replaying the trace on a mutex gives its present owner -/
  replayed : ∀ r, replay r s.trace = some (s.chopsticks r)
  /-- the trace and the mutex agree on who holds what -/
  held : ∀ i r, holding i r s.trace = true ↔ s.chopsticks r = some i
  /-- executed operations plus remaining operations is the total amount of code -/
  work : s.trace.length + remaining N s = remaining N (init code N)

/-- The code after the loop iteration `round`, with `todo` iterations to follow. -/
def after (N i round todo : Nat) : List Op :=
  roundsFrom N i (round + 1) todo ++ [Op.cooldown, Op.exit]

/-- The possible values of the remaining code of philosopher `i`: one for each
program point of `philosopher_main`. -/
inductive At (N i : Nat) : List Op → Prop where
  | start (round todo : Nat) :
      At N i (Op.startRound round :: Op.think :: Op.lock (first N i) :: Op.lock (second N i) ::
        Op.eat :: Op.unlock (right N i) :: Op.unlock (left N i) :: after N i round todo)
  | think (round todo : Nat) :
      At N i (Op.think :: Op.lock (first N i) :: Op.lock (second N i) ::
        Op.eat :: Op.unlock (right N i) :: Op.unlock (left N i) :: after N i round todo)
  | lockFirst (round todo : Nat) :
      At N i (Op.lock (first N i) :: Op.lock (second N i) ::
        Op.eat :: Op.unlock (right N i) :: Op.unlock (left N i) :: after N i round todo)
  | lockSecond (round todo : Nat) :
      At N i (Op.lock (second N i) ::
        Op.eat :: Op.unlock (right N i) :: Op.unlock (left N i) :: after N i round todo)
  | eat (round todo : Nat) :
      At N i (Op.eat :: Op.unlock (right N i) :: Op.unlock (left N i) :: after N i round todo)
  | unlockRight (round todo : Nat) :
      At N i (Op.unlock (right N i) :: Op.unlock (left N i) :: after N i round todo)
  | unlockLeft (round todo : Nat) :
      At N i (Op.unlock (left N i) :: after N i round todo)
  | cooldown : At N i [Op.cooldown, Op.exit]
  | exit : At N i [Op.exit]
  | done : At N i []

/-- The adversarial schedule of scenario B for the first `m` philosophers: each
in turn starts its round, thinks, and takes its first chopstick. -/
def grabFirst : Nat → List Nat
  | 0 => []
  | m + 1 => grabFirst m ++ [m, m, m]

/-- The invariant of the degenerate table with a single philosopher and at
least one round: thread 0 gets no further than its second lock of chopstick 0. -/
def SoloInv (X : List Op) (s : State) : Prop :=
  (∀ i, 1 ≤ i → s.philosophers i = []) ∧
  ((s.philosophers 0 = Op.startRound 0 :: Op.think :: Op.lock 0 :: Op.lock 0 :: X ∧
      s.chopsticks 0 = none ∧ s.trace = []) ∨
   (s.philosophers 0 = Op.think :: Op.lock 0 :: Op.lock 0 :: X ∧
      s.chopsticks 0 = none ∧ s.trace = [(0, Op.startRound 0)]) ∨
   (s.philosophers 0 = Op.lock 0 :: Op.lock 0 :: X ∧
      s.chopsticks 0 = none ∧ s.trace = [(0, Op.startRound 0), (0, Op.think)]) ∨
   (s.philosophers 0 = Op.lock 0 :: X ∧
      s.chopsticks 0 = some 0 ∧
      s.trace = [(0, Op.startRound 0), (0, Op.think), (0, Op.lock 0)]))

/-- The schedule that runs the philosophers one after the other, each for
`steps` operations, from philosopher 0 up to philosopher `m - 1`. -/
def inTurn (steps : Nat) : Nat → List Nat
  | 0 => []
  | m + 1 => inTurn steps m ++ List.replicate steps m

/-! ## Basic index arithmetic -/

theorem and_one_ne_zero_iff (i : Nat) : (i &&& 1 ≠ 0) ↔ i % 2 = 1 := by
  rw [Nat.and_one_is_mod]; omega

theorem left_eq_self {N i : Nat} (h : i < N) : left N i = i := by
  unfold left
  rw [Nat.add_mod_right, Nat.mod_eq_of_lt h]

theorem right_eq_ite {N i : Nat} (h : i < N) :
    right N i = if i + 1 = N then 0 else i + 1 := by
  unfold right
  split
  · next h1 => rw [h1, Nat.mod_self]
  · next h1 => exact Nat.mod_eq_of_lt (by omega)

theorem right_lt {N i : Nat} (hN : 0 < N) : right N i < N := Nat.mod_lt _ hN

theorem right_ne_self {N i : Nat} (hN : 2 ≤ N) (h : i < N) : right N i ≠ i := by
  rw [right_eq_ite h]; split <;> omega

theorem first_second_cases (N i : Nat) :
    (i % 2 = 0 ∧ first N i = left N i ∧ second N i = right N i) ∨
    (i % 2 = 1 ∧ first N i = right N i ∧ second N i = left N i) := by
  unfold first second
  by_cases h : i % 2 = 1
  · right; simp [(and_one_ne_zero_iff i).2 h, h]
  · left
    have h0 : ¬ (i &&& 1 ≠ 0) := fun hc => h ((and_one_ne_zero_iff i).1 hc)
    refine ⟨by omega, ?_, ?_⟩ <;> simp only [h0, if_false]


/-! ## The step function -/

theorem setAt_same {α : Type} (f : Nat → α) (i : Nat) (v : α) : setAt f i v i = v := by
  simp [setAt]

theorem setAt_other {α : Type} (f : Nat → α) {i j : Nat} (v : α) (h : j ≠ i) :
    setAt f i v j = f j := by
  simp [setAt, h]

theorem step_cases {i : Nat} {s s' : State} (h : step i s = some s') :
    ∃ op rest, s.philosophers i = op :: rest ∧
      s' = ⟨setAt s.philosophers i rest, applyOp i s.chopsticks op, s.trace ++ [(i, op)]⟩ ∧
      (∀ c, op = Op.lock c → s.chopsticks c = none) := by
  unfold step at h
  split at h
  · simp at h
  · next c rest heq =>
    split at h
    · next hfree =>
      refine ⟨Op.lock c, rest, heq, ?_, ?_⟩
      · simp at h; rw [← h]; rfl
      · intro c' hc'; cases hc'; exact hfree
    · simp at h
  · next c rest heq =>
    refine ⟨Op.unlock c, rest, heq, ?_, ?_⟩
    · simp at h; rw [← h]; rfl
    · intro c' hc'; cases hc'
  · next op rest hl hu heq =>
    refine ⟨op, rest, heq, ?_, ?_⟩
    · simp at h; rw [← h]
      cases op with
      | lock c => exact absurd rfl (hl c)
      | unlock c => exact absurd rfl (hu c)
      | _ => rfl
    · intro c hc; exact absurd hc (hl c)

theorem step_eq_none_iff (i : Nat) (s : State) :
    step i s = none ↔
      s.philosophers i = [] ∨
        ∃ c rest, s.philosophers i = Op.lock c :: rest ∧ s.chopsticks c ≠ none := by
  unfold step
  split
  · next heq => simp [heq]
  · next c rest heq =>
    split
    · next hfree => simp [heq, hfree]
    · next hheld => simp [heq, hheld]
  · next c rest heq => simp [heq]
  · next op rest hl hu heq =>
    simp only [heq, reduceCtorEq, false_or, false_iff, not_exists, not_and]
    intro c r hc
    simp only [List.cons.injEq] at hc
    exact absurd hc.1 (hl c)

theorem exec_append (a b : List Nat) (s : State) : exec (a ++ b) s = exec b (exec a s) := by
  induction a generalizing s with
  | nil => rfl
  | cons i a ih => simp [exec, ih]

theorem exec_invariant (P : State → Prop)
    (hstep : ∀ i s s', P s → step i s = some s' → P s') (sched : List Nat) :
    ∀ s, P s → P (exec sched s) := by
  induction sched with
  | nil => intro s hs; exact hs
  | cons i sched ih =>
    intro s hs
    simp only [exec]
    apply ih
    cases hst : step i s with
    | none => simpa using hs
    | some s' => simpa using hstep i s s' hs hst


/-! ## Traces, pairing and the invariant -/

theorem traceOf_snoc (i j : Nat) (op : Op) (t : List (Nat × Op)) :
    traceOf i (t ++ [(j, op)]) = if j = i then traceOf i t ++ [op] else traceOf i t := by
  unfold traceOf
  by_cases h : j = i <;> simp [List.filter_append, List.filter_cons, h]

theorem holding_snoc (i r : Nat) (e : Nat × Op) (t : List (Nat × Op)) :
    holding i r (t ++ [e]) =
      if e = (i, Op.lock r) then true
      else if e = (i, Op.unlock r) then false else holding i r t := by
  simp [holding, List.foldl_append]

theorem replay_snoc (r : Nat) (e : Nat × Op) (t : List (Nat × Op)) :
    replay r (t ++ [e]) = replayStep r (replay r t) e := by
  simp [replay, List.foldl_append]

theorem owes_lock (c' c : Nat) (rest : List Op) :
    owes (Op.lock c' :: rest) c = if c' = c then false else owes rest c := rfl

theorem owes_unlock (c' c : Nat) (rest : List Op) :
    owes (Op.unlock c' :: rest) c = if c' = c then true else owes rest c := rfl

theorem owes_other {op : Op} (hl : ∀ c, op ≠ Op.lock c) (hu : ∀ c, op ≠ Op.unlock c)
    (rest : List Op) (c : Nat) : owes (op :: rest) c = owes rest c := by
  cases op with
  | lock c' => exact absurd rfl (hl c')
  | unlock c' => exact absurd rfl (hu c')
  | _ => rfl

theorem paired_tail {op : Op} {rest : List Op} (h : Paired (op :: rest)) : Paired rest := by
  cases op with
  | lock c => exact h.2
  | unlock c => exact h.2
  | _ => exact h

theorem remaining_setAt {N j : Nat} (f : Nat → List Op) (tr : List (Nat × Op))
    (ch : Nat → Option Nat) (ch' : Nat → Option Nat) (tr' : List (Nat × Op))
    {op : Op} {rest : List Op} (hj : j < N) (h : f j = op :: rest) :
    remaining N ⟨setAt f j rest, ch', tr'⟩ + 1 = remaining N ⟨f, ch, tr⟩ := by
  unfold remaining
  simp only
  induction N with
  | zero => omega
  | succ n ih =>
    rw [List.range_succ, List.map_append, List.map_append, List.sum_append, List.sum_append]
    simp only [List.map_cons, List.map_nil, List.sum_cons, List.sum_nil, Nat.add_zero]
    by_cases hjn : j = n
    · subst hjn
      have hsame : (List.range j).map (fun i => (setAt f j rest i).length) =
          (List.range j).map (fun i => (f i).length) := by
        apply List.map_congr_left
        intro a ha
        rw [setAt_other]
        have := List.mem_range.1 ha
        omega
      rw [hsame, setAt_same, h]
      simp
      omega
    · have := ih (by omega)
      rw [setAt_other _ _ (Ne.symm hjn)]
      omega

theorem inv_init_state {code : Nat → List Op} {N : Nat}
    (hp : ∀ i, i < N → Paired (code i)) (ho : ∀ i c, i < N → owes (code i) c = false) :
    Inv code N (init code N) where
  code_eq := by intro i hi; simp [init, traceOf, hi]
  absent := by intro i hi; simp [init, Nat.not_lt.2 hi]
  actors := by intro e he; simp [init] at he
  owner := by
    intro c i
    simp only [init]
    by_cases hi : i < N
    · simp [hi, ho i c hi]
    · simp [hi, owes]
  paired := by
    intro i
    simp only [init]
    by_cases hi : i < N
    · simpa [hi] using hp i hi
    · simp [hi, Paired]
  replayed := by intro r; rfl
  held := by intro i r; simp [init, holding]
  work := by simp [init]


theorem inv_lt_of_code {code : Nat → List Op} {N : Nat} {s : State} (hI : Inv code N s)
    {i : Nat} (h : s.philosophers i ≠ []) : i < N := by
  by_contra hc
  exact h (hI.absent i (Nat.not_lt.1 hc))

theorem inv_owner_lt {code : Nat → List Op} {N : Nat} {s : State} (hI : Inv code N s)
    {c i : Nat} (h : s.chopsticks c = some i) : i < N := by
  apply inv_lt_of_code hI
  intro hnil
  have := (hI.owner c i).1 h
  rw [hnil] at this
  simp [owes] at this

theorem inv_step {code : Nat → List Op} {N : Nat} {s s' : State} {j : Nat}
    (hI : Inv code N s) (h : step j s = some s') : Inv code N s' := by
  obtain ⟨op, rest, hop, hs', hfree⟩ := step_cases h
  have hjN : j < N := inv_lt_of_code hI (by rw [hop]; simp)
  have hpj : Paired (op :: rest) := hop ▸ hI.paired j
  subst hs'
  refine ⟨?_, ?_, ?_, ?_, ?_, ?_, ?_, ?_⟩
  · -- code_eq
    intro i hi
    simp only [traceOf_snoc]
    by_cases hij : j = i
    · subst hij
      rw [if_pos rfl, setAt_same, List.append_assoc, List.singleton_append, ← hop]
      exact hI.code_eq j hi
    · rw [if_neg hij, setAt_other _ _ (Ne.symm hij)]
      exact hI.code_eq i hi
  · -- absent
    intro i hi
    have : i ≠ j := by omega
    simp only [setAt_other _ _ this]
    exact hI.absent i hi
  · -- actors
    intro e he
    simp only [List.mem_append, List.mem_singleton] at he
    rcases he with he | he
    · exact hI.actors e he
    · subst he; exact hjN
  · -- owner
    intro c i
    simp only
    cases op with
    | lock c0 =>
      have hc0 := hfree c0 rfl
      have hrest : owes rest c0 = true := hpj.1
      simp only [applyOp]
      by_cases hc : c = c0
      · subst hc
        rw [setAt_same]
        by_cases hij : i = j
        · subst hij; simp [setAt_same, hrest]
        · rw [setAt_other _ _ hij]
          have h1 := hI.owner c i
          rw [hc0] at h1
          constructor
          · intro hh; exact absurd (Option.some.inj hh).symm hij
          · intro hh; exact absurd (h1.2 hh) (by simp)
      · rw [setAt_other _ _ hc]
        by_cases hij : i = j
        · subst hij
          rw [setAt_same, hI.owner c i, hop, owes_lock, if_neg (Ne.symm hc)]
        · rw [setAt_other _ _ hij]; exact hI.owner c i
    | unlock c0 =>
      have hrest : owes rest c0 = false := hpj.1
      have hown : s.chopsticks c0 = some j := by
        rw [hI.owner c0 j, hop, owes_unlock, if_pos rfl]
      simp only [applyOp]
      by_cases hc : c = c0
      · subst hc
        rw [setAt_same]
        by_cases hij : i = j
        · subst hij; simp [setAt_same, hrest]
        · rw [setAt_other _ _ hij]
          have h1 := hI.owner c i
          rw [hown] at h1
          constructor
          · intro hh; exact absurd hh (by simp)
          · intro hh; exact absurd (Option.some.inj (h1.2 hh)).symm hij
      · rw [setAt_other _ _ hc]
        by_cases hij : i = j
        · subst hij
          rw [setAt_same, hI.owner c i, hop, owes_unlock, if_neg (Ne.symm hc)]
        · rw [setAt_other _ _ hij]; exact hI.owner c i
    | _ =>
      simp only [applyOp]
      by_cases hij : i = j
      · subst hij
        rw [setAt_same, hI.owner c i, hop]
        rfl
      · rw [setAt_other _ _ hij]; exact hI.owner c i
  · -- paired
    intro i
    by_cases hij : i = j
    · subst hij; simp only [setAt_same]; exact paired_tail hpj
    · simp only [setAt_other _ _ hij]; exact hI.paired i
  · -- replayed
    intro r
    simp only [replay_snoc, hI.replayed r]
    cases op with
    | lock c0 =>
      have hc0 := hfree c0 rfl
      simp only [applyOp]
      by_cases hc : c0 = r
      · subst hc; simp [replayStep, hc0, setAt_same]
      · rw [setAt_other _ _ (Ne.symm hc)]
        cases hr : s.chopsticks r <;> simp [replayStep, hc]
    | unlock c0 =>
      have hown : s.chopsticks c0 = some j := by
        rw [hI.owner c0 j, hop, owes_unlock, if_pos rfl]
      simp only [applyOp]
      by_cases hc : c0 = r
      · subst hc; simp [replayStep, hown, setAt_same]
      · rw [setAt_other _ _ (Ne.symm hc)]
        cases hr : s.chopsticks r <;> simp [replayStep, hc]
    | _ => cases hr : s.chopsticks r <;> simp [replayStep, applyOp, hr]
  · -- held
    intro i r
    simp only [holding_snoc]
    cases op with
    | lock c0 =>
      have hc0 := hfree c0 rfl
      simp only [applyOp]
      by_cases he : (j, Op.lock c0) = (i, Op.lock r)
      · simp only [Prod.mk.injEq, Op.lock.injEq] at he
        obtain ⟨rfl, rfl⟩ := he
        simp [setAt_same]
      · rw [if_neg he, if_neg (by simp)]
        by_cases hc : r = c0
        · subst hc
          rw [setAt_same, hI.held i r, hc0]
          simp only [Prod.mk.injEq, Op.lock.injEq, and_true] at he
          simp [he]
        · rw [setAt_other _ _ hc]; exact hI.held i r
    | unlock c0 =>
      have hown : s.chopsticks c0 = some j := by
        rw [hI.owner c0 j, hop, owes_unlock, if_pos rfl]
      simp only [applyOp]
      rw [if_neg (by simp)]
      by_cases he : (j, Op.unlock c0) = (i, Op.unlock r)
      · simp only [Prod.mk.injEq, Op.unlock.injEq] at he
        obtain ⟨rfl, rfl⟩ := he
        simp [setAt_same]
      · rw [if_neg he]
        by_cases hc : r = c0
        · subst hc
          rw [setAt_same, hI.held i r, hown]
          simp only [Prod.mk.injEq, Op.unlock.injEq, and_true] at he
          simp [he]
        · rw [setAt_other _ _ hc]; exact hI.held i r
    | _ =>
      simp only [applyOp]
      rw [if_neg (by simp), if_neg (by simp)]
      exact hI.held i r
  · -- work
    have h1 : remaining N ⟨setAt s.philosophers j rest, applyOp j s.chopsticks op,
        s.trace ++ [(j, op)]⟩ + 1 = remaining N s :=
      remaining_setAt s.philosophers s.trace s.chopsticks
        (applyOp j s.chopsticks op) (s.trace ++ [(j, op)]) hjN hop
    have h2 := hI.work
    simp only [List.length_append, List.length_singleton]
    omega

theorem inv_exec_of_paired {code : Nat → List Op} {N : Nat}
    (hp : ∀ i, i < N → Paired (code i)) (ho : ∀ i c, i < N → owes (code i) c = false)
    (sched : List Nat) : Inv code N (exec sched (init code N)) :=
  exec_invariant (Inv code N) (fun _ _ _ hI h => inv_step hI h) sched _ (inv_init_state hp ho)


/-! ## The code of `philosopher_main` -/

theorem roundsFrom_succ (N i round todo : Nat) (tl : List Op) :
    roundsFrom N i round (todo + 1) ++ tl =
      Op.startRound round :: Op.think :: Op.lock (first N i) :: Op.lock (second N i) ::
        Op.eat :: Op.unlock (right N i) :: Op.unlock (left N i) ::
          (roundsFrom N i (round + 1) todo ++ tl) := by
  simp [roundsFrom, roundBody, think, pickUp, eat, putDown, right, left]

theorem owes_roundsFrom (N i c : Nat) :
    ∀ todo round, owes (roundsFrom N i round todo ++ [Op.cooldown, Op.exit]) c = false := by
  intro todo
  induction todo with
  | zero => intro round; rfl
  | succ todo ih =>
    intro round
    rw [roundsFrom_succ]
    rcases first_second_cases N i with ⟨_, hf, hs⟩ | ⟨_, hf, hs⟩ <;>
      simp only [hf, hs, owes, ih] <;> split_ifs <;> rfl

theorem owes_after (N i round todo c : Nat) : owes (after N i round todo) c = false :=
  owes_roundsFrom N i c todo (round + 1)

theorem owes_philosopher_main (N R i c : Nat) : owes (philosopher_main N R i) c = false :=
  owes_roundsFrom N i c R 0

theorem paired_roundsFrom {N i : Nat} (hN : 2 ≤ N) (hi : i < N) :
    ∀ todo round, Paired (roundsFrom N i round todo ++ [Op.cooldown, Op.exit]) := by
  have hne : right N i ≠ left N i := by rw [left_eq_self hi]; exact right_ne_self hN hi
  intro todo
  induction todo with
  | zero => intro round; simp [roundsFrom, Paired]
  | succ todo ih =>
    intro round
    rw [roundsFrom_succ]
    have h1 := owes_roundsFrom N i (right N i) todo (round + 1)
    have h2 := owes_roundsFrom N i (left N i) todo (round + 1)
    rcases first_second_cases N i with ⟨_, hf, hs⟩ | ⟨_, hf, hs⟩ <;>
      simp [hf, hs, owes, Paired, ih, h1, h2, hne, Ne.symm hne]

theorem paired_philosopher_main {N i : Nat} (hN : 2 ≤ N) (hi : i < N) (R : Nat) :
    Paired (philosopher_main N R i) :=
  paired_roundsFrom hN hi R 0

theorem append_eq_cons_cases {α : Type} {pre p l : List α} {a : α} (h : pre ++ p = a :: l) :
    p = a :: l ∨ ∃ pre', pre' ++ p = l := by
  cases pre with
  | nil => left; simpa using h
  | cons b pre' =>
    right
    refine ⟨pre', ?_⟩
    simp only [List.cons_append, List.cons.injEq] at h
    exact h.2

theorem at_of_suffix (N i : Nat) :
    ∀ todo round pre p, pre ++ p = roundsFrom N i round todo ++ [Op.cooldown, Op.exit] →
      At N i p := by
  intro todo
  induction todo with
  | zero =>
    intro round pre p h
    simp only [roundsFrom, List.nil_append] at h
    rcases append_eq_cons_cases h with h | ⟨pre1, h⟩
    · rw [h]; exact At.cooldown
    rcases append_eq_cons_cases h with h | ⟨pre2, h⟩
    · rw [h]; exact At.exit
    have : p = [] := by
      simp only [List.append_eq_nil] at h
      exact h.2
    rw [this]; exact At.done
  | succ todo ih =>
    intro round pre p h
    rw [roundsFrom_succ] at h
    rcases append_eq_cons_cases h with h | ⟨pre1, h⟩
    · rw [h]; exact At.start round todo
    rcases append_eq_cons_cases h with h | ⟨pre2, h⟩
    · rw [h]; exact At.think round todo
    rcases append_eq_cons_cases h with h | ⟨pre3, h⟩
    · rw [h]; exact At.lockFirst round todo
    rcases append_eq_cons_cases h with h | ⟨pre4, h⟩
    · rw [h]; exact At.lockSecond round todo
    rcases append_eq_cons_cases h with h | ⟨pre5, h⟩
    · rw [h]; exact At.eat round todo
    rcases append_eq_cons_cases h with h | ⟨pre6, h⟩
    · rw [h]; exact At.unlockRight round todo
    rcases append_eq_cons_cases h with h | ⟨pre7, h⟩
    · rw [h]; exact At.unlockLeft round todo
    exact ih (round + 1) pre7 p h

/-- The invariant holds in every reachable state of the program of `dp.c`. -/
theorem inv_exec {N : Nat} (hN : 2 ≤ N) (R : Nat) (sched : List Nat) :
    Inv (philosopher_main N R) N (exec sched (init (philosopher_main N R) N)) :=
  inv_exec_of_paired (fun _ hi => paired_philosopher_main hN hi R)
    (fun i c _ => owes_philosopher_main N R i c) sched

theorem at_of_inv {N R : Nat} {s : State} (hI : Inv (philosopher_main N R) N s) (i : Nat) :
    At N i (s.philosophers i) := by
  by_cases hi : i < N
  · exact at_of_suffix N i R 0 _ _ (hI.code_eq i hi)
  · rw [hI.absent i (Nat.not_lt.1 hi)]; exact At.done


/-! ## Deadlock freedom of the parity rule -/

theorem no_chain {N j j1 j2 : Nat} (hN : 2 ≤ N) (hj : j < N) (hj1 : j1 < N) (hj2 : j2 < N)
    (h1 : first N j1 = second N j) (h2 : first N j2 = second N j1) : False := by
  rcases first_second_cases N j with ⟨p0, f0, s0⟩ | ⟨p0, f0, s0⟩ <;>
  rcases first_second_cases N j1 with ⟨p1, f1, s1⟩ | ⟨p1, f1, s1⟩ <;>
  rcases first_second_cases N j2 with ⟨p2, f2, s2⟩ | ⟨p2, f2, s2⟩ <;>
  rw [f1, s0] at h1 <;> rw [f2, s1] at h2 <;>
  simp only [left_eq_self hj, left_eq_self hj1, left_eq_self hj2, right_eq_ite hj,
    right_eq_ite hj1, right_eq_ite hj2] at h1 h2 <;>
  split_ifs at h1 h2 <;> omega

theorem owner_blocked {N R : Nat} {s : State} (hI : Inv (philosopher_main N R) N s)
    {c h : Nat} (hown : s.chopsticks c = some h) (hblk : step h s = none) :
    h < N ∧ c = first N h ∧ ∃ j, s.chopsticks (second N h) = some j := by
  have hlt := inv_owner_lt hI hown
  have howes := (hI.owner c h).1 hown
  have hat := at_of_inv hI h
  rcases (step_eq_none_iff h s).1 hblk with hnil | ⟨c', rest, heq, hheld⟩
  · rw [hnil] at howes; simp [owes] at howes
  · rw [heq] at hat howes
    obtain ⟨j, hj⟩ := Option.ne_none_iff_exists'.1 hheld
    cases hat with
    | lockFirst round todo =>
      exfalso
      have ha := owes_after N h round todo c
      rcases first_second_cases N h with ⟨_, hf, hs⟩ | ⟨_, hf, hs⟩ <;>
        simp only [hf, hs, owes, ha] at howes <;> split_ifs at howes
    | lockSecond round todo =>
      refine ⟨hlt, ?_, j, hj⟩
      have ha := owes_after N h round todo c
      rcases first_second_cases N h with ⟨_, hf, hs⟩ | ⟨_, hf, hs⟩ <;>
        simp only [hf, hs, owes, ha] at howes ⊢ <;> split_ifs at howes with h1 h2 <;>
        exact h2.symm

/-- In a state that satisfies the invariant, some philosopher can move unless
all of them have terminated. -/
theorem some_enabled {N R : Nat} (hN : 2 ≤ N) {s : State}
    (hI : Inv (philosopher_main N R) N s) (hnd : ∃ i, i < N ∧ ¬ finished s i) :
    ∃ i, i < N ∧ enabled s i = true := by
  by_contra hcon
  have hall : ∀ i, i < N → step i s = none := by
    intro i hi
    cases hst : step i s with
    | none => rfl
    | some s' => exact absurd ⟨i, hi, by simp [enabled, hst]⟩ hcon
  obtain ⟨i0, hi0, hnf⟩ := hnd
  rcases (step_eq_none_iff i0 s).1 (hall i0 hi0) with hnil | ⟨c, rest, _, hheld⟩
  · exact hnf hnil
  obtain ⟨j, hj⟩ := Option.ne_none_iff_exists'.1 hheld
  have hjN := inv_owner_lt hI hj
  obtain ⟨_, _, j1, hj1⟩ := owner_blocked hI hj (hall j hjN)
  have hj1N := inv_owner_lt hI hj1
  obtain ⟨_, e1, j2, hj2⟩ := owner_blocked hI hj1 (hall j1 hj1N)
  have hj2N := inv_owner_lt hI hj2
  obtain ⟨_, e2, _, _⟩ := owner_blocked hI hj2 (hall j2 hj2N)
  exact no_chain hN hjN hj1N hj2N e1.symm e2.symm


/-! ## The rounds of `philosopher_main` -/

theorem roundsFrom_eq_flatMap (N i : Nat) :
    ∀ todo round, roundsFrom N i round todo =
      (List.range' round todo).flatMap (fun k =>
        [Op.startRound k, Op.think, Op.lock (first N i), Op.lock (second N i), Op.eat,
          Op.unlock (right N i), Op.unlock (left N i)]) := by
  intro todo
  induction todo with
  | zero => intro round; rfl
  | succ todo ih =>
    intro round
    have h := roundsFrom_succ N i round todo []
    simp only [List.append_nil] at h
    rw [h, List.range'_succ, List.flatMap_cons, ← ih (round + 1)]
    rfl

theorem lockOps_roundsFrom (N i : Nat) :
    ∀ todo round, lockOps (roundsFrom N i round todo ++ [Op.cooldown, Op.exit]) =
      (List.replicate todo [Op.lock (first N i), Op.lock (second N i),
        Op.unlock (right N i), Op.unlock (left N i)]).flatten := by
  intro todo
  induction todo with
  | zero => intro round; rfl
  | succ todo ih =>
    intro round
    have h := ih (round + 1)
    unfold lockOps at h ⊢
    rw [roundsFrom_succ, List.replicate_succ, List.flatten_cons]
    simp only [List.filter_cons, List.cons_append, List.nil_append]
    simp only [if_true, Bool.false_eq_true, if_false]
    rw [h]

theorem length_roundsFrom (N i : Nat) :
    ∀ todo round, (roundsFrom N i round todo).length = 7 * todo := by
  intro todo
  induction todo with
  | zero => intro round; rfl
  | succ todo ih =>
    intro round
    have h := roundsFrom_succ N i round todo []
    simp only [List.append_nil] at h
    rw [h]
    simp only [List.length_cons, ih (round + 1)]
    omega

theorem length_philosopher_main (N R i : Nat) : (philosopher_main N R i).length = 7 * R + 2 := by
  simp [philosopher_main, length_roundsFrom]


/-! ## Counting -/

theorem remaining_init (N R : Nat) :
    remaining N (init (philosopher_main N R) N) = N * (7 * R + 2) := by
  unfold remaining init
  simp only
  have h : (List.range N).map (fun i =>
      (if i < N then philosopher_main N R i else []).length) =
      (List.range N).map (fun _ => 7 * R + 2) := by
    apply List.map_congr_left
    intro i hi
    rw [if_pos (List.mem_range.1 hi), length_philosopher_main]
  rw [h]
  simp

theorem remaining_eq_zero_iff (N : Nat) (s : State) :
    remaining N s = 0 ↔ ∀ i, i < N → finished s i := by
  unfold remaining finished
  rw [List.sum_eq_zero_iff]
  constructor
  · intro h i hi
    have := h (s.philosophers i).length (List.mem_map.2 ⟨i, List.mem_range.2 hi, rfl⟩)
    exact List.length_eq_zero.1 this
  · intro h x hx
    obtain ⟨i, hi, rfl⟩ := List.mem_map.1 hx
    rw [h i (List.mem_range.1 hi)]
    rfl

theorem lockCount_snoc (r : Nat) (e : Nat × Op) (t : List (Nat × Op)) :
    lockCount r (t ++ [e]) = lockCount r t + if e.2 = Op.lock r then 1 else 0 := by
  simp [lockCount, List.countP_append, List.countP_cons]

theorem unlockCount_snoc (r : Nat) (e : Nat × Op) (t : List (Nat × Op)) :
    unlockCount r (t ++ [e]) = unlockCount r t + if e.2 = Op.unlock r then 1 else 0 := by
  simp [unlockCount, List.countP_append, List.countP_cons]

/-- A trace that respects the lock discipline on `r` has as many locks as
unlocks of `r`, plus one when it leaves `r` owned. -/
theorem count_of_replay (r : Nat) (t : List (Nat × Op)) :
    ∀ o, replay r t = some o →
      lockCount r t = unlockCount r t + if o.isSome then 1 else 0 := by
  induction t using List.reverseRecOn with
  | nil =>
    intro o h
    simp only [replay, List.foldl_nil, Option.some.injEq] at h
    subst h
    rfl
  | append_singleton t e ih =>
    intro o h
    rw [replay_snoc] at h
    rw [lockCount_snoc, unlockCount_snoc]
    obtain ⟨i, op⟩ := e
    cases hm : replay r t with
    | none => rw [hm] at h; simp [replayStep] at h
    | some m =>
      have ih' := ih m hm
      rw [hm] at h
      cases m with
      | none =>
        cases op with
        | lock c =>
          simp only [replayStep] at h
          by_cases hc : c = r
          · simp only [hc, if_true, Option.some.injEq] at h
            subst h; simp [hc] at ih' ⊢; omega
          · simp only [hc, if_false, Option.some.injEq] at h
            subst h; simp [hc] at ih' ⊢; omega
        | unlock c =>
          simp only [replayStep] at h
          by_cases hc : c = r
          · simp [hc] at h
          · simp only [hc, if_false, Option.some.injEq] at h
            subst h; simp [hc] at ih' ⊢; omega
        | _ =>
          simp only [replayStep, Option.some.injEq] at h
          subst h; simp at ih' ⊢; omega
      | some j =>
        cases op with
        | lock c =>
          simp only [replayStep] at h
          by_cases hc : c = r
          · simp [hc] at h
          · simp only [hc, if_false, Option.some.injEq] at h
            subst h; simp [hc] at ih' ⊢; omega
        | unlock c =>
          simp only [replayStep] at h
          by_cases hc : c = r
          · by_cases hij : i = j
            · simp only [hc, hij, if_true, Option.some.injEq] at h
              subst h; simp [hc] at ih' ⊢; omega
            · simp [hc, hij] at h
          · simp only [hc, if_false, Option.some.injEq] at h
            subst h; simp [hc] at ih' ⊢; omega
        | _ =>
          simp only [replayStep, Option.some.injEq] at h
          subst h; simp at ih' ⊢; omega

theorem all_free_of_finished {code : Nat → List Op} {N : Nat} {s : State} (hI : Inv code N s)
    (hfin : ∀ i, i < N → finished s i) (r : Nat) : s.chopsticks r = none := by
  cases h : s.chopsticks r with
  | none => rfl
  | some i =>
    have hi := inv_owner_lt hI h
    have := (hI.owner r i).1 h
    rw [hfin i hi] at this
    simp [owes] at this


theorem traceOf_cons (i : Nat) (e : Nat × Op) (t : List (Nat × Op)) :
    traceOf i (e :: t) = if e.1 = i then e.2 :: traceOf i t else traceOf i t := by
  unfold traceOf
  by_cases h : e.1 = i <;> simp [List.filter_cons, h]

/-- The events with operation `op` in a trace, counted thread by thread. -/
theorem countP_trace_sum (N : Nat) (op : Op) (t : List (Nat × Op))
    (ht : ∀ e ∈ t, e.1 < N) :
    t.countP (fun e => decide (e.2 = op)) =
      ∑ i ∈ Finset.range N, (traceOf i t).countP (fun o => decide (o = op)) := by
  induction t with
  | nil => simp [traceOf]
  | cons e t ih =>
    have ih' := ih (fun e' he' => ht e' (List.mem_cons_of_mem _ he'))
    have he : e.1 ∈ Finset.range N := Finset.mem_range.2 (ht e (List.mem_cons_self _ _))
    have hsplit : ∀ i, (traceOf i (e :: t)).countP (fun o => decide (o = op)) =
        (traceOf i t).countP (fun o => decide (o = op)) +
          if e.1 = i then (if e.2 = op then 1 else 0) else 0 := by
      intro i
      rw [traceOf_cons]
      by_cases h : e.1 = i
      · simp [h, List.countP_cons]
      · simp [h]
    simp only [hsplit, Finset.sum_add_distrib, Finset.sum_ite_eq, he, if_true]
    rw [List.countP_cons, ih']
    simp

theorem lockCountBy_eq (i r : Nat) (t : List (Nat × Op)) :
    lockCountBy i r t = (traceOf i t).countP (fun o => decide (o = Op.lock r)) := by
  unfold lockCountBy
  induction t with
  | nil => simp [traceOf]
  | cons e t ih =>
    rw [traceOf_cons, List.countP_cons, ih]
    obtain ⟨j, op⟩ := e
    by_cases h : j = i
    · simp [h, List.countP_cons]
    · simp [h]

theorem count_lock_roundsFrom (N i r : Nat) :
    ∀ todo round,
      (roundsFrom N i round todo ++ [Op.cooldown, Op.exit]).countP
          (fun o => decide (o = Op.lock r)) =
        todo * ((if first N i = r then 1 else 0) + (if second N i = r then 1 else 0)) := by
  intro todo
  induction todo with
  | zero => intro round; simp [roundsFrom, List.countP_cons]
  | succ todo ih =>
    intro round
    rw [roundsFrom_succ]
    simp only [List.countP_cons, ih (round + 1)]
    simp
    ring

theorem count_unlock_roundsFrom (N i r : Nat) :
    ∀ todo round,
      (roundsFrom N i round todo ++ [Op.cooldown, Op.exit]).countP
          (fun o => decide (o = Op.unlock r)) =
        todo * ((if right N i = r then 1 else 0) + (if left N i = r then 1 else 0)) := by
  intro todo
  induction todo with
  | zero => intro round; simp [roundsFrom, List.countP_cons]
  | succ todo ih =>
    intro round
    rw [roundsFrom_succ]
    simp only [List.countP_cons, ih (round + 1)]
    simp
    ring

theorem pred_lt {N : Nat} (hN : 0 < N) (r : Nat) : (r + N - 1) % N < N := Nat.mod_lt _ hN

theorem pred_eq_ite {N r : Nat} (hr : r < N) :
    (r + N - 1) % N = if r = 0 then N - 1 else r - 1 := by
  split
  · next h => subst h; simp
  · next h =>
    have : r + N - 1 = (r - 1) + N := by omega
    rw [this, Nat.add_mod_right]
    exact Nat.mod_eq_of_lt (by omega)

theorem right_eq_iff {N i r : Nat} (hN : 2 ≤ N) (hi : i < N) (hr : r < N) :
    right N i = r ↔ i = (r + N - 1) % N := by
  rw [right_eq_ite hi, pred_eq_ite hr]
  split_ifs <;> omega

theorem pred_ne_self {N r : Nat} (hN : 2 ≤ N) (hr : r < N) : (r + N - 1) % N ≠ r := by
  rw [pred_eq_ite hr]
  split_ifs <;> omega

theorem sum_two_indicators {N a b : Nat} (ha : a < N) (hb : b < N) (R : Nat) :
    ∑ i ∈ Finset.range N, R * ((if i = a then 1 else 0) + (if i = b then 1 else 0)) = 2 * R := by
  simp only [Nat.mul_add, Finset.sum_add_distrib, mul_ite, mul_one, mul_zero]
  rw [Finset.sum_ite_eq', Finset.sum_ite_eq']
  simp [ha, hb]
  omega

theorem lock_indicator {N i r : Nat} (hN : 2 ≤ N) (hi : i < N) (hr : r < N) :
    ((if first N i = r then 1 else 0) + (if second N i = r then 1 else 0) : Nat) =
      (if i = r then 1 else 0) + (if i = (r + N - 1) % N then 1 else 0) := by
  have h1 : (first N i = r ∨ second N i = r) ↔ (i = r ∨ i = (r + N - 1) % N) := by
    rw [← right_eq_iff hN hi hr]
    rcases first_second_cases N i with ⟨_, hf, hs⟩ | ⟨_, hf, hs⟩
    · rw [hf, hs, left_eq_self hi]
    · rw [hf, hs, left_eq_self hi]; exact Or.comm
  have h2 : first N i ≠ second N i := by
    have := right_ne_self hN hi
    rcases first_second_cases N i with ⟨_, hf, hs⟩ | ⟨_, hf, hs⟩ <;>
      rw [hf, hs, left_eq_self hi] <;> omega
  have h3 := pred_ne_self hN hr
  split_ifs <;> simp_all

theorem unlock_indicator {N i r : Nat} (hN : 2 ≤ N) (hi : i < N) (hr : r < N) :
    ((if right N i = r then 1 else 0) + (if left N i = r then 1 else 0) : Nat) =
      (if i = r then 1 else 0) + (if i = (r + N - 1) % N then 1 else 0) := by
  have h := lock_indicator hN hi hr
  rcases first_second_cases N i with ⟨_, hf, hs⟩ | ⟨_, hf, hs⟩ <;>
    rw [hf, hs] at h <;> omega


/-! ## The symmetric variant and the single-philosopher table -/

theorem roundsFromSymmetric_succ (N i round todo : Nat) (tl : List Op) :
    roundsFromSymmetric N i round (todo + 1) ++ tl =
      Op.startRound round :: Op.think :: Op.lock (left N i) :: Op.lock (right N i) ::
        Op.eat :: Op.unlock (right N i) :: Op.unlock (left N i) ::
          (roundsFromSymmetric N i (round + 1) todo ++ tl) := by
  simp [roundsFromSymmetric, roundBodySymmetric, think, pickUpSymmetric, eat, putDown,
    right, left]

theorem step_startRound {i k : Nat} {s : State} {rest : List Op}
    (h : s.philosophers i = Op.startRound k :: rest) :
    step i s = some ⟨setAt s.philosophers i rest, s.chopsticks,
      s.trace ++ [(i, Op.startRound k)]⟩ := by
  simp [step, h]

theorem step_think {i : Nat} {s : State} {rest : List Op}
    (h : s.philosophers i = Op.think :: rest) :
    step i s = some ⟨setAt s.philosophers i rest, s.chopsticks, s.trace ++ [(i, Op.think)]⟩ := by
  simp [step, h]

theorem step_lock_free {i c : Nat} {s : State} {rest : List Op}
    (h : s.philosophers i = Op.lock c :: rest) (hc : s.chopsticks c = none) :
    step i s = some ⟨setAt s.philosophers i rest, setAt s.chopsticks c (some i),
      s.trace ++ [(i, Op.lock c)]⟩ := by
  simp [step, h, hc]

/-- Three moves of thread `m`: start of round, think, first lock. -/
theorem exec_three {m k c : Nat} {s : State} {rest : List Op}
    (h : s.philosophers m = Op.startRound k :: Op.think :: Op.lock c :: rest)
    (hc : s.chopsticks c = none) :
    (exec [m, m, m] s).philosophers m = rest ∧
    (∀ i, i ≠ m → (exec [m, m, m] s).philosophers i = s.philosophers i) ∧
    (exec [m, m, m] s).chopsticks c = some m ∧
    (∀ c', c' ≠ c → (exec [m, m, m] s).chopsticks c' = s.chopsticks c') := by
  have h1 := step_startRound h
  have h2 : step m ⟨setAt s.philosophers m (Op.think :: Op.lock c :: rest), s.chopsticks,
      s.trace ++ [(m, Op.startRound k)]⟩ = _ := step_think (setAt_same _ _ _)
  have h3 : step m ⟨setAt (setAt s.philosophers m (Op.think :: Op.lock c :: rest)) m
      (Op.lock c :: rest), s.chopsticks,
      s.trace ++ [(m, Op.startRound k)] ++ [(m, Op.think)]⟩ = _ :=
    step_lock_free (setAt_same _ _ _) hc
  simp only [exec, h1, Option.getD_some, h2, h3]
  refine ⟨setAt_same _ _ _, ?_, setAt_same _ _ _, ?_⟩
  · intro i hi; simp [setAt, hi]
  · intro c' hc'; simp [setAt, hc']

theorem symmetric_grab (N R : Nat) (hR : 1 ≤ R) :
    ∀ m, m ≤ N →
      (∀ i, i < m →
        (∃ rest, (exec (grabFirst m) (init (philosopher_main_symmetric N R) N)).philosophers i =
          Op.lock (right N i) :: rest) ∧
        (exec (grabFirst m) (init (philosopher_main_symmetric N R) N)).chopsticks i = some i) ∧
      (∀ i, m ≤ i →
        (exec (grabFirst m) (init (philosopher_main_symmetric N R) N)).philosophers i =
          (init (philosopher_main_symmetric N R) N).philosophers i ∧
        (exec (grabFirst m) (init (philosopher_main_symmetric N R) N)).chopsticks i = none) := by
  obtain ⟨R', rfl⟩ : ∃ R', R = R' + 1 := ⟨R - 1, by omega⟩
  intro m
  induction m with
  | zero =>
    intro _
    refine ⟨fun i hi => absurd hi (Nat.not_lt_zero i), fun i _ => ⟨rfl, rfl⟩⟩
  | succ m ih =>
    intro hm
    obtain ⟨ihlow, ihhigh⟩ := ih (by omega)
    have hmN : m < N := by omega
    have hcode : (exec (grabFirst m) (init (philosopher_main_symmetric N (R' + 1)) N)).philosophers m
        = Op.startRound 0 :: Op.think :: Op.lock m :: Op.lock (right N m) ::
          Op.eat :: Op.unlock (right N m) :: Op.unlock (left N m) ::
            (roundsFromSymmetric N m (0 + 1) R' ++ [Op.cooldown, Op.exit]) := by
      rw [(ihhigh m (Nat.le_refl m)).1]
      simp only [init, hmN, if_true, philosopher_main_symmetric]
      rw [roundsFromSymmetric_succ, left_eq_self hmN]
    obtain ⟨e1, e2, e3, e4⟩ := exec_three hcode (ihhigh m (Nat.le_refl m)).2
    simp only [grabFirst, exec_append]
    constructor
    · intro i hi
      by_cases him : i = m
      · subst him
        exact ⟨⟨_, e1⟩, e3⟩
      · have hlt : i < m := by omega
        rw [e2 i him, e4 i him]
        exact ihlow i hlt
    · intro i hi
      have him : i ≠ m := by omega
      rw [e2 i him, e4 i him]
      exact ihhigh i (by omega)

theorem symmetric_deadlock (N R : Nat) (hN : 2 ≤ N) (hR : 1 ≤ R) :
    Deadlocked N (exec (grabFirst N) (init (philosopher_main_symmetric N R) N)) := by
  obtain ⟨hlow, _⟩ := symmetric_grab N R hR N (Nat.le_refl N)
  constructor
  · refine ⟨0, by omega, ?_⟩
    obtain ⟨⟨rest, h⟩, _⟩ := hlow 0 (by omega)
    unfold finished
    rw [h]
    simp
  · intro i hi
    obtain ⟨⟨rest, h⟩, _⟩ := hlow i hi
    have hr : right N i < N := right_lt (by omega)
    have hheld := (hlow (right N i) hr).2
    have : step i (exec (grabFirst N) (init (philosopher_main_symmetric N R) N)) = none := by
      rw [step_eq_none_iff]
      right
      exact ⟨right N i, rest, h, by rw [hheld]; simp⟩
    simp [enabled, this]


theorem solo_code (R : Nat) :
    philosopher_main 1 (R + 1) 0 =
      Op.startRound 0 :: Op.think :: Op.lock 0 :: Op.lock 0 ::
        Op.eat :: Op.unlock 0 :: Op.unlock 0 :: after 1 0 0 R := by
  unfold philosopher_main after
  rw [roundsFrom_succ]
  rfl

theorem solo_init_state (R : Nat) :
    SoloInv (Op.eat :: Op.unlock 0 :: Op.unlock 0 :: after 1 0 0 R)
      (init (philosopher_main 1 (R + 1)) 1) := by
  constructor
  · intro i hi
    simp only [init]
    rw [if_neg (by omega)]
  · left
    refine ⟨?_, rfl, rfl⟩
    simp only [init]
    rw [if_pos (by omega), solo_code]

theorem solo_step {X : List Op} {s s' : State} {j : Nat} (hJ : SoloInv X s)
    (h : step j s = some s') : SoloInv X s' := by
  obtain ⟨op, rest, hop, hs', hfree⟩ := step_cases h
  obtain ⟨habs, hcases⟩ := hJ
  have hj : j = 0 := by
    by_contra hne
    rw [habs j (by omega)] at hop
    simp at hop
  subst hj
  subst hs'
  refine ⟨fun i hi => ?_, ?_⟩
  · simp only
    rw [setAt_other _ _ (by omega)]
    exact habs i hi
  · rcases hcases with ⟨hp, hc, ht⟩ | ⟨hp, hc, ht⟩ | ⟨hp, hc, ht⟩ | ⟨hp, hc, ht⟩
    · rw [hp] at hop
      simp only [List.cons.injEq] at hop
      obtain ⟨rfl, rfl⟩ := hop
      right; left
      exact ⟨by simp [setAt], hc, by simp [ht]⟩
    · rw [hp] at hop
      simp only [List.cons.injEq] at hop
      obtain ⟨rfl, rfl⟩ := hop
      right; right; left
      exact ⟨by simp [setAt], hc, by simp [ht]⟩
    · rw [hp] at hop
      simp only [List.cons.injEq] at hop
      obtain ⟨rfl, rfl⟩ := hop
      right; right; right
      exact ⟨by simp [setAt], by simp [applyOp, setAt], by simp [ht]⟩
    · rw [hp] at hop
      simp only [List.cons.injEq] at hop
      obtain ⟨rfl, rfl⟩ := hop
      have := hfree 0 rfl
      rw [hc] at this
      simp at this

theorem solo_exec (R : Nat) (sched : List Nat) :
    SoloInv (Op.eat :: Op.unlock 0 :: Op.unlock 0 :: after 1 0 0 R)
      (exec sched (init (philosopher_main 1 (R + 1)) 1)) :=
  exec_invariant _ (fun _ _ _ hJ h => solo_step hJ h) sched _ (solo_init_state R)

theorem solo_stuck {X : List Op} {s : State} (hJ : SoloInv X s) :
    ¬ finished s 0 ∧ lockCount 0 s.trace ≤ 1 ∧ (∀ e ∈ s.trace, e.2 ≠ Op.eat) := by
  obtain ⟨_, hcases⟩ := hJ
  unfold finished
  rcases hcases with ⟨hp, _, ht⟩ | ⟨hp, _, ht⟩ | ⟨hp, _, ht⟩ | ⟨hp, _, ht⟩ <;>
    simp [hp, ht, lockCount, List.countP_cons]

theorem solo_deadlock (R : Nat) :
    Deadlocked 1 (exec [0, 0, 0] (init (philosopher_main 1 (R + 1)) 1)) := by
  have hcode : (init (philosopher_main 1 (R + 1)) 1).philosophers 0 =
      Op.startRound 0 :: Op.think :: Op.lock 0 :: Op.lock 0 ::
        Op.eat :: Op.unlock 0 :: Op.unlock 0 :: after 1 0 0 R := by
    simp only [init]
    rw [if_pos (by omega), solo_code]
  obtain ⟨e1, _, e3, _⟩ := exec_three hcode rfl
  constructor
  · refine ⟨0, by omega, ?_⟩
    unfold finished
    rw [e1]
    simp
  · intro i hi
    have hi0 : i = 0 := by omega
    subst hi0
    have : step 0 (exec [0, 0, 0] (init (philosopher_main 1 (R + 1)) 1)) = none := by
      rw [step_eq_none_iff]
      right
      exact ⟨0, _, e1, by rw [e3]; simp⟩
    simp [enabled, this]

/-! ## The join loop of `main` -/

theorem joinLoop_joined (pthread_join : Nat → Int) :
    ∀ todo i, (joinLoop pthread_join i todo).1 = List.range' i todo := by
  intro todo
  induction todo with
  | zero => intro i; rfl
  | succ todo ih => intro i; simp [joinLoop, ih, List.range'_succ]

theorem joinLoop_output (pthread_join : Nat → Int) :
    ∀ todo i, (joinLoop pthread_join i todo).2 =
      (List.range' i todo).map (fun k =>
        if pthread_join k ≠ 0 then Msg.errJoin else Msg.doneInMain k) := by
  intro todo
  induction todo with
  | zero => intro i; rfl
  | succ todo ih => intro i; simp [joinLoop, ih, List.range'_succ]


/-! ## Ownership at each program point -/

theorem inv_of_reachable {N R : Nat} (hN : 2 ≤ N) {s : State}
    (hs : Reachable (philosopher_main N R) N s) : Inv (philosopher_main N R) N s := by
  obtain ⟨sched, rfl⟩ := hs
  exact inv_exec hN R sched

theorem not_owner_of_owes {code : Nat → List Op} {N : Nat} {s : State} (hI : Inv code N s)
    {i : Nat} (h : ∀ c, owes (s.philosophers i) c = false) (c : Nat) :
    s.chopsticks c ≠ some i := by
  intro hc
  have := (hI.owner c i).1 hc
  rw [h c] at this
  simp at this

theorem owes_both {N i : Nat} (hN : 2 ≤ N) (hi : i < N) (tl : List Op)
    (htl : ∀ c, owes tl c = false) (c : Nat) :
    owes (Op.unlock (right N i) :: Op.unlock (left N i) :: tl) c = true ↔
      (c = i ∨ c = (i + 1) % N) := by
  have hne := right_ne_self hN hi
  have hr : right N i = (i + 1) % N := rfl
  rw [← hr]
  simp only [owes, htl, left_eq_self hi]
  split_ifs with h1 h2 <;> first | omega | (simp_all; done) | (simp_all; omega)

theorem owes_pending {N i : Nat} (tl : List Op) (htl : ∀ c, owes tl c = false) (c : Nat) :
    owes (Op.lock (first N i) :: Op.lock (second N i) :: Op.eat ::
      Op.unlock (right N i) :: Op.unlock (left N i) :: tl) c = false := by
  rcases first_second_cases N i with ⟨_, hf, hs⟩ | ⟨_, hf, hs⟩ <;>
    simp only [hf, hs, owes, htl] <;> split_ifs <;> rfl

/-- A philosopher whose next operation is none of lock, eat, unlock owns nothing. -/
theorem idle_owns_nothing {N R : Nat} {s : State} (hI : Inv (philosopher_main N R) N s)
    (i : Nat)
    (hidle : (s.philosophers i).head? = none ∨
      (∃ round, (s.philosophers i).head? = some (Op.startRound round)) ∨
      (s.philosophers i).head? = some Op.think ∨
      (s.philosophers i).head? = some Op.cooldown ∨
      (s.philosophers i).head? = some Op.exit) :
    ∀ c, s.chopsticks c ≠ some i := by
  apply not_owner_of_owes hI
  intro c
  have hat := at_of_inv hI i
  generalize hp : s.philosophers i = p at hat hidle
  cases hat with
  | start round todo => exact owes_pending _ (owes_after N i round todo) c
  | think round todo => exact owes_pending _ (owes_after N i round todo) c
  | cooldown => rfl
  | exit => rfl
  | done => rfl
  | _ => simp at hidle

/-- A philosopher that eats, or is about to execute `putDown`, owns exactly its
two chopsticks. -/
theorem eating_owns_both {N R : Nat} (hN : 2 ≤ N) {s : State}
    (hI : Inv (philosopher_main N R) N s) {i : Nat} (hi : i < N)
    (heat : (s.philosophers i).head? = some Op.eat ∨
      ∃ rest, s.philosophers i = putDown N i ++ rest) (c : Nat) :
    s.chopsticks c = some i ↔ (c = i ∨ c = (i + 1) % N) := by
  rw [hI.owner c i]
  have hne := right_ne_self hN hi
  have hl := left_eq_self hi
  have hat := at_of_inv hI i
  generalize hp : s.philosophers i = p at hat heat
  cases hat with
  | eat round todo =>
    exact owes_both hN hi _ (owes_after N i round todo) c
  | unlockRight round todo =>
    exact owes_both hN hi _ (owes_after N i round todo) c
  | unlockLeft round todo =>
    exfalso
    rcases heat with h | ⟨rest, h⟩
    · simp at h
    · simp only [putDown, List.cons_append, List.cons.injEq, Op.unlock.injEq] at h
      have h1 : left N i = right N i := h.1
      omega
  | _ => simp [putDown] at heat

/-- An unlock is only ever executed by the owner of the chopstick. -/
theorem unlock_by_owner {code : Nat → List Op} {N : Nat} {s : State} (hI : Inv code N s)
    {i c : Nat} {rest : List Op} (h : s.philosophers i = Op.unlock c :: rest) :
    s.chopsticks c = some i := by
  rw [hI.owner c i, h, owes_unlock, if_pos rfl]

/-- After the second unlock of `putDown` the philosopher owns nothing. -/
theorem after_putDown_owns_nothing {N R : Nat} (hN : 2 ≤ N) {s s' : State}
    (hI : Inv (philosopher_main N R) N s) {i : Nat} (hi : i < N) {rest : List Op}
    (h : s.philosophers i = Op.unlock (left N i) :: rest) (hst : step i s = some s') :
    ∀ c, s'.chopsticks c ≠ some i := by
  have hI' := inv_step hI hst
  apply not_owner_of_owes hI'
  intro c
  obtain ⟨op, rest', hop, hs', _⟩ := step_cases hst
  have hrest : s'.philosophers i = rest := by
    rw [hs']
    simp only [setAt_same]
    rw [h] at hop
    simp only [List.cons.injEq] at hop
    exact hop.2.symm
  rw [hrest]
  have hne := right_ne_self hN hi
  have hl := left_eq_self hi
  have hat := at_of_inv hI i
  generalize hp : s.philosophers i = p at hat h
  cases hat with
  | unlockRight round todo =>
    exfalso
    simp only [List.cons.injEq, Op.unlock.injEq] at h
    omega
  | unlockLeft round todo =>
    simp only [List.cons.injEq, Op.unlock.injEq, true_and] at h
    rw [← h]
    exact owes_after N i round todo c
  | _ => simp at h


/-! ## Completion -/

theorem reachable_step {code : Nat → List Op} {N : Nat} {s s' : State} {i : Nat}
    (hs : Reachable code N s) (hst : step i s = some s') : Reachable code N s' := by
  obtain ⟨sched, rfl⟩ := hs
  refine ⟨sched ++ [i], ?_⟩
  rw [exec_append]
  simp [exec, hst]

theorem remaining_step {code : Nat → List Op} {N : Nat} {s s' : State} {i : Nat}
    (hI : Inv code N s) (hst : step i s = some s') : remaining N s' + 1 = remaining N s := by
  have h1 := hI.work
  have h2 := (inv_step hI hst).work
  obtain ⟨op, rest, _, hs', _⟩ := step_cases hst
  have h3 : s'.trace.length = s.trace.length + 1 := by rw [hs']; simp
  omega

/-- From every state that satisfies the invariant the philosophers can run to
full completion. -/
theorem completion_of_inv {N R : Nat} (hN : 2 ≤ N) :
    ∀ n (s : State), Inv (philosopher_main N R) N s → remaining N s = n →
      ∃ sched, ∀ i, i < N → finished (exec sched s) i := by
  intro n
  induction n with
  | zero =>
    intro s _ hrem
    exact ⟨[], (remaining_eq_zero_iff N s).1 hrem⟩
  | succ n ih =>
    intro s hI hrem
    have hnd : ∃ i, i < N ∧ ¬ finished s i := by
      by_contra hcon
      have hall : ∀ i, i < N → finished s i := by
        intro i hi
        by_contra hni
        exact hcon ⟨i, hi, hni⟩
      have := (remaining_eq_zero_iff N s).2 hall
      omega
    obtain ⟨i, _, hen⟩ := some_enabled hN hI hnd
    obtain ⟨s', hst⟩ := Option.isSome_iff_exists.1 hen
    have hrem' := remaining_step hI hst
    obtain ⟨sched, hsched⟩ := ih s' (inv_step hI hst) (by omega)
    refine ⟨i :: sched, ?_⟩
    simpa [exec, hst] using hsched


/-! ## The claims -/

/-- C1: with `N >= 1` philosophers and `i < N`, `pickUp i` consists of exactly
two lock operations: chopstick `i` then chopstick `(i + 1) % N` when `i` is
even, chopstick `(i + 1) % N` then chopstick `i` when `i` is odd; the index
`left` it computes is `i` itself and `right` is `(i + 1) % N`. -/
theorem pickUp_order (N i : Nat) (hN : 1 ≤ N) (hi : i < N) :
    left N i = i ∧ right N i = (i + 1) % N ∧
    (i % 2 = 0 → pickUp N i = [Op.lock i, Op.lock ((i + 1) % N)]) ∧
    (i % 2 = 1 → pickUp N i = [Op.lock ((i + 1) % N), Op.lock i]) := by
  have _ := hN
  refine ⟨left_eq_self hi, rfl, ?_, ?_⟩
  · intro hp
    rcases first_second_cases N i with ⟨_, hf, hs⟩ | ⟨h1, _, _⟩
    · simp only [pickUp, hf, hs, left_eq_self hi, right]
    · omega
  · intro hp
    rcases first_second_cases N i with ⟨h0, _, _⟩ | ⟨_, hf, hs⟩
    · omega
    · simp only [pickUp, hf, hs, left_eq_self hi, right]

/-- Instance of C1 at `N = 5`: philosopher 4 (even) locks 4 then 0, philosopher 3
(odd) locks 4 then 3. -/
theorem pickUp_order_witness :
    (1 ≤ 5 ∧ 4 < 5) ∧
    (left 5 4 = 4 ∧ right 5 4 = (4 + 1) % 5 ∧
      (4 % 2 = 0 → pickUp 5 4 = [Op.lock 4, Op.lock ((4 + 1) % 5)]) ∧
      (4 % 2 = 1 → pickUp 5 4 = [Op.lock ((4 + 1) % 5), Op.lock 4])) :=
  ⟨by decide, pickUp_order 5 4 (by decide) (by decide)⟩

/-- C2: deadlock freedom.  With `N >= 2` philosophers and any number of rounds,
in every reachable state in which some philosopher has not terminated, some
philosopher can execute its next operation, so no reachable state is
deadlocked.  From every reachable state some schedule leads to the state in
which all philosophers have terminated.  Every executed operation lengthens the
trace by one, the trace never exceeds `N * (7 * R + 2)` operations, and it has
that length exactly when all philosophers have terminated: every execution that
keeps moving reaches full completion. -/
theorem deadlock_freedom (N R : Nat) (hN : 2 ≤ N) (s : State)
    (hs : Reachable (philosopher_main N R) N s) :
    ((∃ i, i < N ∧ ¬ finished s i) → ∃ i, i < N ∧ enabled s i = true) ∧
    ¬ Deadlocked N s ∧
    (∃ sched, ∀ i, i < N → finished (exec sched s) i) ∧
    (∀ i s', step i s = some s' → s'.trace.length = s.trace.length + 1) ∧
    s.trace.length ≤ N * (7 * R + 2) ∧
    (s.trace.length = N * (7 * R + 2) ↔ ∀ i, i < N → finished s i) := by
  have hI := inv_of_reachable hN hs
  have hw := hI.work
  rw [remaining_init] at hw
  have hz := remaining_eq_zero_iff N s
  refine ⟨some_enabled hN hI, ?_, completion_of_inv hN _ s hI rfl, ?_, by omega, ?_⟩
  · rintro ⟨hnd, hblk⟩
    obtain ⟨i, hi, hen⟩ := some_enabled hN hI hnd
    rw [hblk i hi] at hen
    exact absurd hen (by simp)
  · intro i s' hst
    obtain ⟨op, rest, _, hs', _⟩ := step_cases hst
    rw [hs']
    simp
  · rw [← hz]
    omega

/-- Instance of C2 at the boundary `N = 2` (both philosophers lock chopstick 0
and then chopstick 1), `R = 1`, after philosopher 0 has taken chopstick 0 and
philosopher 1 waits for it. -/
theorem deadlock_freedom_witness :
    (2 ≤ 2 ∧ Reachable (philosopher_main 2 1) 2
      (exec [0, 0, 0, 1, 1, 1] (init (philosopher_main 2 1) 2))) ∧
    (pickUp 2 0 = [Op.lock 0, Op.lock 1] ∧ pickUp 2 1 = [Op.lock 0, Op.lock 1]) ∧
    (((∃ i, i < 2 ∧ ¬ finished (exec [0, 0, 0, 1, 1, 1] (init (philosopher_main 2 1) 2)) i) →
        ∃ i, i < 2 ∧ enabled (exec [0, 0, 0, 1, 1, 1] (init (philosopher_main 2 1) 2)) i = true) ∧
      ¬ Deadlocked 2 (exec [0, 0, 0, 1, 1, 1] (init (philosopher_main 2 1) 2)) ∧
      (∃ sched, ∀ i, i < 2 →
        finished (exec sched (exec [0, 0, 0, 1, 1, 1] (init (philosopher_main 2 1) 2))) i) ∧
      (∀ i s', step i (exec [0, 0, 0, 1, 1, 1] (init (philosopher_main 2 1) 2)) = some s' →
        s'.trace.length =
          (exec [0, 0, 0, 1, 1, 1] (init (philosopher_main 2 1) 2)).trace.length + 1) ∧
      (exec [0, 0, 0, 1, 1, 1] (init (philosopher_main 2 1) 2)).trace.length ≤ 2 * (7 * 1 + 2) ∧
      ((exec [0, 0, 0, 1, 1, 1] (init (philosopher_main 2 1) 2)).trace.length = 2 * (7 * 1 + 2) ↔
        ∀ i, i < 2 → finished (exec [0, 0, 0, 1, 1, 1] (init (philosopher_main 2 1) 2)) i)) :=
  ⟨⟨by decide, ⟨[0, 0, 0, 1, 1, 1], rfl⟩⟩, by decide,
    deadlock_freedom 2 1 (by decide) _ ⟨[0, 0, 0, 1, 1, 1], rfl⟩⟩

/-- C3: mutual exclusion.  With `N >= 2`, in every reachable state two
philosophers that are both between their lock of chopstick `r` and their unlock
of `r` are the same philosopher; the philosopher in that position is the owner
recorded by the mutex. -/
theorem mutual_exclusion (N R : Nat) (hN : 2 ≤ N) (s : State)
    (hs : Reachable (philosopher_main N R) N s) (r i j : Nat)
    (hi : holding i r s.trace = true) (hj : holding j r s.trace = true) :
    i = j ∧ s.chopsticks r = some i := by
  have hI := inv_of_reachable hN hs
  have h1 := (hI.held i r).1 hi
  have h2 := (hI.held j r).1 hj
  rw [h1] at h2
  exact ⟨Option.some.inj h2, h1⟩

/-- Instance of C3 at `N = 2`, `R = 1`: philosopher 0 holds chopstick 0. -/
theorem mutual_exclusion_witness :
    (2 ≤ 2 ∧ Reachable (philosopher_main 2 1) 2
        (exec [0, 0, 0, 1, 1] (init (philosopher_main 2 1) 2)) ∧
      holding 0 0 (exec [0, 0, 0, 1, 1] (init (philosopher_main 2 1) 2)).trace = true) ∧
    (0 = 0 ∧ (exec [0, 0, 0, 1, 1] (init (philosopher_main 2 1) 2)).chopsticks 0 = some 0) :=
  ⟨⟨by decide, ⟨[0, 0, 0, 1, 1], rfl⟩, by decide⟩,
    mutual_exclusion 2 1 (by decide) _ ⟨[0, 0, 0, 1, 1], rfl⟩ 0 0 0 (by decide) (by decide)⟩

/-- C4: no lost or extra resource.  With `N >= 2`, in every reachable state the
lock and unlock events on each chopstick `r` alternate, starting with a lock,
and each unlock is by the philosopher of the preceding lock; once all
philosophers have terminated, `r` has been locked as often as unlocked. -/
theorem lock_unlock_alternate (N R : Nat) (hN : 2 ≤ N) (s : State)
    (hs : Reachable (philosopher_main N R) N s) (r : Nat) :
    Alternates r s.trace ∧
    ((∀ i, i < N → finished s i) → lockCount r s.trace = unlockCount r s.trace) := by
  have hI := inv_of_reachable hN hs
  refine ⟨?_, ?_⟩
  · unfold Alternates
    rw [hI.replayed r]
    rfl
  · intro hfin
    have h := count_of_replay r s.trace _ (hI.replayed r)
    rw [all_free_of_finished hI hfin r] at h
    simpa using h


/-- Instance of C4 at `N = 2`, `R = 1`, on the complete run in which philosopher
0 executes all its code and then philosopher 1 does. -/
theorem lock_unlock_alternate_witness :
    (2 ≤ 2 ∧ Reachable (philosopher_main 2 1) 2
      (exec (inTurn 9 2) (init (philosopher_main 2 1) 2))) ∧
    (Alternates 0 (exec (inTurn 9 2) (init (philosopher_main 2 1) 2)).trace ∧
      lockCount 0 (exec (inTurn 9 2) (init (philosopher_main 2 1) 2)).trace =
        unlockCount 0 (exec (inTurn 9 2) (init (philosopher_main 2 1) 2)).trace) :=
  ⟨⟨by decide, ⟨inTurn 9 2, rfl⟩⟩,
    (lock_unlock_alternate 2 1 (by decide) _ ⟨inTurn 9 2, rfl⟩ 0).1,
    (lock_unlock_alternate 2 1 (by decide) _ ⟨inTurn 9 2, rfl⟩ 0).2
      (by unfold finished; decide)⟩

/-- C5: round completeness.  The code of `philosopher_main` for philosopher
`i < N` is, for `round = 0, ..., R - 1` in turn, the phases `think`, `pickUp`,
`eat`, `putDown` in this order, followed by the cooldown and the exit, where
`R = NUMBER_OF_ROUNDS = 5`; its lock and unlock operations are `R` repetitions
of lock `first`, lock `second`, unlock `(i + 1) % N`, unlock `i`; `think` and
`eat` contain no lock and no unlock. -/
theorem round_completeness (N R i : Nat) (hi : i < N) :
    philosopher_main N R i =
      (List.range R).flatMap (fun round =>
        Op.startRound round :: (think i ++ pickUp N i ++ eat i ++ putDown N i)) ++
        [Op.cooldown, Op.exit] ∧
    lockOps (philosopher_main N R i) =
      (List.replicate R [Op.lock (first N i), Op.lock (second N i),
        Op.unlock ((i + 1) % N), Op.unlock i]).flatten ∧
    lockOps (think i) = [] ∧ lockOps (eat i) = [] ∧
    NUMBER_OF_ROUNDS = 5 ∧
    (philosopher_main N NUMBER_OF_ROUNDS i).length = 7 * 5 + 2 := by
  refine ⟨?_, ?_, rfl, rfl, rfl, length_philosopher_main N 5 i⟩
  · unfold philosopher_main
    rw [roundsFrom_eq_flatMap, List.range_eq_range']
    rfl
  · have h := lockOps_roundsFrom N i R 0
    rw [left_eq_self hi] at h
    exact h

/-- Instance of C5 for philosopher 1 of 5 and two rounds. -/
theorem round_completeness_witness :
    1 < 5 ∧
    lockOps (philosopher_main 5 2 1) =
      [Op.lock 2, Op.lock 1, Op.unlock 2, Op.unlock 1,
        Op.lock 2, Op.lock 1, Op.unlock 2, Op.unlock 1] :=
  ⟨by decide, (round_completeness 5 2 1 (by decide)).2.1.trans (by decide)⟩

/-- C6: scenario A.  With `N >= 2`, once all philosophers have terminated each
chopstick `r < N` has been locked exactly `2 * R` times, `R` times by
philosopher `r` and `R` times by its predecessor `(r - 1) mod N`, and unlocked
exactly `2 * R` times. -/
theorem lock_counts (N R : Nat) (hN : 2 ≤ N) (s : State)
    (hs : Reachable (philosopher_main N R) N s) (hfin : ∀ i, i < N → finished s i)
    (r : Nat) (hr : r < N) :
    lockCount r s.trace = 2 * R ∧ unlockCount r s.trace = 2 * R ∧
    lockCountBy r r s.trace = R ∧ lockCountBy ((r + N - 1) % N) r s.trace = R := by
  have hI := inv_of_reachable hN hs
  have hpred : (r + N - 1) % N < N := pred_lt (by omega) r
  have htr : ∀ i, i < N → traceOf i s.trace = philosopher_main N R i := by
    intro i hi
    have h := hI.code_eq i hi
    rw [hfin i hi, List.append_nil] at h
    exact h
  refine ⟨?_, ?_, ?_, ?_⟩
  · unfold lockCount
    rw [countP_trace_sum N _ _ hI.actors, ← sum_two_indicators hr hpred R]
    apply Finset.sum_congr rfl
    intro i hi
    have hiN := Finset.mem_range.1 hi
    rw [htr i hiN, ← lock_indicator hN hiN hr]
    exact count_lock_roundsFrom N i r R 0
  · unfold unlockCount
    rw [countP_trace_sum N _ _ hI.actors, ← sum_two_indicators hr hpred R]
    apply Finset.sum_congr rfl
    intro i hi
    have hiN := Finset.mem_range.1 hi
    rw [htr i hiN, ← unlock_indicator hN hiN hr]
    exact count_unlock_roundsFrom N i r R 0
  · rw [lockCountBy_eq, htr r hr]
    have h := count_lock_roundsFrom N r r R 0
    rw [lock_indicator hN hr hr] at h
    unfold philosopher_main
    rw [h, if_pos rfl, if_neg (Ne.symm (pred_ne_self hN hr))]
    omega
  · rw [lockCountBy_eq, htr _ hpred]
    have h := count_lock_roundsFrom N ((r + N - 1) % N) r R 0
    rw [lock_indicator hN hpred hr] at h
    unfold philosopher_main
    rw [h, if_pos rfl, if_neg (pred_ne_self hN hr)]
    omega


/-- Instance of C6 on the built configuration `N = 5`, `R = 5`: on the complete
run in which the philosophers execute one after the other, chopstick 0 is
locked 10 times, 5 times by philosopher 0 and 5 times by philosopher 4. -/
theorem lock_counts_witness :
    (2 ≤ 5 ∧
      Reachable (philosopher_main 5 5) 5 (exec (inTurn 37 5) (init (philosopher_main 5 5) 5)) ∧
      (∀ i, i < 5 → finished (exec (inTurn 37 5) (init (philosopher_main 5 5) 5)) i) ∧
      0 < 5) ∧
    (lockCount 0 (exec (inTurn 37 5) (init (philosopher_main 5 5) 5)).trace = 10 ∧
      unlockCount 0 (exec (inTurn 37 5) (init (philosopher_main 5 5) 5)).trace = 10 ∧
      lockCountBy 0 0 (exec (inTurn 37 5) (init (philosopher_main 5 5) 5)).trace = 5 ∧
      lockCountBy 4 0 (exec (inTurn 37 5) (init (philosopher_main 5 5) 5)).trace = 5) :=
  have hfin : ∀ i, i < 5 → finished (exec (inTurn 37 5) (init (philosopher_main 5 5) 5)) i := by
    unfold finished; decide
  ⟨⟨by decide, ⟨inTurn 37 5, rfl⟩, hfin, by decide⟩,
    lock_counts 5 5 (by decide) _ ⟨inTurn 37 5, rfl⟩ hfin 0 (by decide)⟩


/-- C7 as the code has it: for every vector of `pthread_join` results, the
parent process calls `pthread_join` on every philosopher `0, ..., N - 1` in
order, whether or not an earlier join failed, prints the error line for each
join that does not return 0 and the done line for each that does, and `main`
returns 0 in every case. -/
theorem main_joins_all_returns_zero (N : Nat) (pid : Int) (pthread_join : Nat → Int) :
    (main N pid pthread_join).status = 0 ∧
    (pid ≠ 0 →
      (main N pid pthread_join).joined = List.range N ∧
      (main N pid pthread_join).output =
        (List.range N).map (fun k =>
          if pthread_join k ≠ 0 then Msg.errJoin else Msg.doneInMain k)) := by
  constructor
  · unfold main; split <;> rfl
  · intro hpid
    unfold main
    rw [if_neg hpid]
    simp only
    rw [joinLoop_joined, joinLoop_output, List.range_eq_range']
    exact ⟨rfl, rfl⟩

/-- Instance of C7 as the code has it, in the built program with every join
succeeding: all five philosophers are joined and `main` returns 0. -/
theorem main_joins_all_returns_zero_witness :
    (1 : Int) ≠ 0 ∧
    (main NUMBER_OF_PHILOSOPHERS 1 (fun _ => 0)).status = 0 ∧
    (main NUMBER_OF_PHILOSOPHERS 1 (fun _ => 0)).joined = List.range NUMBER_OF_PHILOSOPHERS :=
  ⟨by decide, (main_joins_all_returns_zero NUMBER_OF_PHILOSOPHERS 1 (fun _ => 0)).1,
    ((main_joins_all_returns_zero NUMBER_OF_PHILOSOPHERS 1 (fun _ => 0)).2 (by decide)).1⟩

/-- C7 as stated fails: in the built program, when the join of philosopher 2
fails and the other joins succeed, every philosopher is joined, the error line
is printed, and `main` still returns 0. -/
theorem main_join_failure_returns_zero :
    joinFailsAt2 2 ≠ 0 ∧
    (main NUMBER_OF_PHILOSOPHERS 1 joinFailsAt2).status = 0 ∧
    (main NUMBER_OF_PHILOSOPHERS 1 joinFailsAt2).joined = [0, 1, 2, 3, 4] ∧
    (main NUMBER_OF_PHILOSOPHERS 1 joinFailsAt2).output =
      [Msg.doneInMain 0, Msg.doneInMain 1, Msg.errJoin, Msg.doneInMain 3, Msg.doneInMain 4] := by
  refine ⟨by decide, by decide, by decide, by decide⟩

/-- C8: holding is determined by the phase.  With `N >= 2`, in every reachable
state and for every philosopher `i < N`: when `i` has terminated or its next
operation is the start of a round, `think`, the cooldown or the exit, it owns no
chopstick; when its next operation is `eat` or it is about to execute
`putDown`, it owns exactly the chopsticks `i` and `(i + 1) % N`; whenever its
next operation is an unlock of `c` it owns `c`; and after the second unlock of
`putDown` it owns no chopstick. -/
theorem holding_by_phase (N R : Nat) (hN : 2 ≤ N) (s : State)
    (hs : Reachable (philosopher_main N R) N s) (i : Nat) (hi : i < N) :
    (((s.philosophers i).head? = none ∨
        (∃ round, (s.philosophers i).head? = some (Op.startRound round)) ∨
        (s.philosophers i).head? = some Op.think ∨
        (s.philosophers i).head? = some Op.cooldown ∨
        (s.philosophers i).head? = some Op.exit) →
      ∀ c, s.chopsticks c ≠ some i) ∧
    (((s.philosophers i).head? = some Op.eat ∨
        ∃ rest, s.philosophers i = putDown N i ++ rest) →
      ∀ c, s.chopsticks c = some i ↔ (c = i ∨ c = (i + 1) % N)) ∧
    (∀ c rest, s.philosophers i = Op.unlock c :: rest → s.chopsticks c = some i) ∧
    (∀ rest s', s.philosophers i = Op.unlock (left N i) :: rest → step i s = some s' →
      ∀ c, s'.chopsticks c ≠ some i) := by
  have hI := inv_of_reachable hN hs
  exact ⟨idle_owns_nothing hI i, fun h c => eating_owns_both hN hI hi h c,
    fun c rest h => unlock_by_owner hI h,
    fun rest s' h hst => after_putDown_owns_nothing hN hI hi h hst⟩

/-- Instance of C8 at `N = 2`, `R = 1`: philosopher 0, about to eat, owns
chopsticks 0 and 1 and nothing else. -/
theorem holding_by_phase_witness :
    (2 ≤ 2 ∧ Reachable (philosopher_main 2 1) 2
        (exec [0, 0, 0, 0] (init (philosopher_main 2 1) 2)) ∧ 0 < 2 ∧
      ((exec [0, 0, 0, 0] (init (philosopher_main 2 1) 2)).philosophers 0).head? =
        some Op.eat) ∧
    ∀ c, (exec [0, 0, 0, 0] (init (philosopher_main 2 1) 2)).chopsticks c = some 0 ↔
      (c = 0 ∨ c = (0 + 1) % 2) :=
  ⟨⟨by decide, ⟨[0, 0, 0, 0], rfl⟩, by decide, by decide⟩,
    (holding_by_phase 2 1 (by decide) _ ⟨[0, 0, 0, 0], rfl⟩ 0 (by decide)).2.1
      (Or.inl (by decide))⟩

/-- C9: scenario B.  With `N >= 2` philosophers and at least one round, under
the symmetric order (own chopstick first, whatever the parity) the state in
which every philosopher has locked its own chopstick and waits for the next one
is reachable and deadlocked; under the parity rule of `pickUp` no reachable
state is deadlocked, all interleavings being allowed. -/
theorem symmetric_deadlocks_parity_does_not (N R : Nat) (hN : 2 ≤ N) (hR : 1 ≤ R) :
    (∃ s, Reachable (philosopher_main_symmetric N R) N s ∧ Deadlocked N s ∧
      (∀ i, i < N → ¬ finished s i) ∧
      ∀ i, i < N → s.chopsticks i = some i ∧
        ∃ rest, s.philosophers i = Op.lock ((i + 1) % N) :: rest) ∧
    (∀ s, Reachable (philosopher_main N R) N s → ¬ Deadlocked N s) := by
  constructor
  · refine ⟨_, ⟨grabFirst N, rfl⟩, symmetric_deadlock N R hN hR, ?_, ?_⟩
    · intro i hi
      obtain ⟨⟨rest, h⟩, _⟩ := (symmetric_grab N R hR N (Nat.le_refl N)).1 i hi
      unfold finished
      rw [h]
      simp
    · intro i hi
      obtain ⟨h, hc⟩ := (symmetric_grab N R hR N (Nat.le_refl N)).1 i hi
      exact ⟨hc, h⟩
  · rintro s hs ⟨hnd, hblk⟩
    obtain ⟨i, hi, hen⟩ := some_enabled hN (inv_of_reachable hN hs) hnd
    rw [hblk i hi] at hen
    exact absurd hen (by simp)

/-- Instance of C9 at `N = 2`, `R = 1`: the symmetric order deadlocks after both
philosophers have taken their own chopstick, and the same schedule does not
deadlock the program of `dp.c`. -/
theorem symmetric_deadlocks_parity_does_not_witness :
    (2 ≤ 2 ∧ 1 ≤ 1) ∧
    Deadlocked 2 (exec [0, 0, 0, 1, 1, 1] (init (philosopher_main_symmetric 2 1) 2)) ∧
    ¬ Deadlocked 2 (exec [0, 0, 0, 1, 1, 1] (init (philosopher_main 2 1) 2)) :=
  ⟨by decide, by unfold Deadlocked finished; decide,
    (symmetric_deadlocks_parity_does_not 2 1 (by decide) (by decide)).2 _
      ⟨[0, 0, 0, 1, 1, 1], rfl⟩⟩

/-- C10: with `N >= 2` and `i < N`, the indices `first` and `second` locked by
`pickUp i` and the indices unlocked by `putDown i` are below `N`, and `first`
differs from `second`.  With `N = 1`, philosopher 0 has `first = second = 0`:
`pickUp 0` locks chopstick 0 twice, and whatever the schedule (with at least one
round) chopstick 0 is locked at most once, `eat` is never reached and
philosopher 0 never terminates; after its first lock the program is deadlocked. -/
theorem indices_in_bounds :
    (∀ N i, 2 ≤ N → i < N →
      first N i < N ∧ second N i < N ∧ first N i ≠ second N i ∧
      (∀ c, Op.lock c ∈ pickUp N i → c < N) ∧ (∀ c, Op.unlock c ∈ putDown N i → c < N)) ∧
    (first 1 0 = 0 ∧ second 1 0 = 0 ∧ pickUp 1 0 = [Op.lock 0, Op.lock 0] ∧
      ∀ R, 1 ≤ R →
        (∀ s, Reachable (philosopher_main 1 R) 1 s →
          ¬ finished s 0 ∧ lockCount 0 s.trace ≤ 1 ∧ ∀ e ∈ s.trace, e.2 ≠ Op.eat) ∧
        Reachable (philosopher_main 1 R) 1 (exec [0, 0, 0] (init (philosopher_main 1 R) 1)) ∧
        Deadlocked 1 (exec [0, 0, 0] (init (philosopher_main 1 R) 1))) := by
  constructor
  · intro N i hN hi
    have hr : right N i < N := right_lt (by omega)
    have hl := left_eq_self hi
    have hne := right_ne_self hN hi
    have hrr : (i + 1) % N = right N i := rfl
    have hll : (i + N) % N = left N i := rfl
    rcases first_second_cases N i with ⟨_, hf, hs⟩ | ⟨_, hf, hs⟩
    · refine ⟨by omega, by omega, by omega, ?_, ?_⟩
      · intro c hc
        simp only [pickUp, List.mem_cons, Op.lock.injEq, List.mem_singleton, List.mem_nil_iff,
          or_false] at hc
        omega
      · intro c hc
        simp only [putDown, hrr, hll, List.mem_cons, Op.unlock.injEq, List.mem_singleton,
          List.mem_nil_iff, or_false] at hc
        omega
    · refine ⟨by omega, by omega, by omega, ?_, ?_⟩
      · intro c hc
        simp only [pickUp, List.mem_cons, Op.lock.injEq, List.mem_singleton, List.mem_nil_iff,
          or_false] at hc
        omega
      · intro c hc
        simp only [putDown, hrr, hll, List.mem_cons, Op.unlock.injEq, List.mem_singleton,
          List.mem_nil_iff, or_false] at hc
        omega
  · refine ⟨by decide, by decide, by decide, ?_⟩
    intro R hR
    obtain ⟨R', rfl⟩ : ∃ R', R = R' + 1 := ⟨R - 1, by omega⟩
    refine ⟨?_, ⟨[0, 0, 0], rfl⟩, solo_deadlock R'⟩
    rintro s ⟨sched, rfl⟩
    exact solo_stuck (solo_exec R' sched)


/-- Instance of C10: philosopher 4 of 5 locks chopsticks 4 and 0, both in
bounds and distinct; alone at the table, philosopher 0 is stuck after the
schedule that lets it move three times. -/
theorem indices_in_bounds_witness :
    (2 ≤ 5 ∧ 4 < 5 ∧ 1 ≤ 1) ∧
    (first 5 4 < 5 ∧ second 5 4 < 5 ∧ first 5 4 ≠ second 5 4) ∧
    Deadlocked 1 (exec [0, 0, 0] (init (philosopher_main 1 1) 1)) :=
  ⟨by decide,
    ⟨(indices_in_bounds.1 5 4 (by decide) (by decide)).1,
      (indices_in_bounds.1 5 4 (by decide) (by decide)).2.1,
      (indices_in_bounds.1 5 4 (by decide) (by decide)).2.2.1⟩,
    (indices_in_bounds.2.2.2.2 1 (by decide)).2.2⟩

end DiningPhilosophers
